import Mathlib

/-!
Verification development for the newsletter curation pipeline
(`src/processors/deduplicator.py` and `src/processors/multi_stage_digest.py`).

The Python code is shallowly embedded: dictionaries of optional fields become a
structure of `Option` fields, `article['k']` (which raises `KeyError` when
absent) becomes a bind in `Except Unit`, `article.get('k', d)` becomes
`Option.getD`, floats become `Rat`, timestamps become integer seconds, and
`datetime.now()` becomes an explicit `now` parameter.  Text is handled as
`List Char`; CPython `str.lower`/`str.strip` are modelled on the ASCII
fragment, which is the fragment all inputs considered here live in.
-/

namespace NewsPipeline

/-- `x * y` on `Rat` through `mkRat` (definitionally evaluable; equal to `x * y`
by `qmul_eq_mul`). -/
def qmul (x y : Rat) : Rat := mkRat (x.num * y.num) (x.den * y.den)

/-- `x + y` on `Rat` through `mkRat` (equal to `x + y` by `qadd_eq_add`). -/
def qadd (x y : Rat) : Rat := mkRat (x.num * y.den + y.num * x.den) (x.den * y.den)

/-- ASCII case folding of one character (CPython `str.lower` on ASCII),
written as an explicit table so that its proofs are case analyses. -/
def lowerChar (c : Char) : Char :=
  if 65 ≤ c.toNat ∧ c.toNat ≤ 90 then Char.ofNat (c.toNat + 32) else c

/-- ASCII case folding of a character list. -/
def lowerL (l : List Char) : List Char := l.map lowerChar

/-- CPython `str.isspace`-style whitespace on ASCII (`\s` of the `re` module). -/
def isPyWs (c : Char) : Bool :=
  c = ' ' || c = '\t' || c = '\n' || c = '\r' || c = '\x0b' || c = '\x0c'

/-- Python `str.strip()` (ASCII whitespace on both ends). -/
def stripL (l : List Char) : List Char :=
  ((l.dropWhile isPyWs).reverse.dropWhile isPyWs).reverse

/-- Python `str.lstrip(chars)` generalised: drop leading characters satisfying `p`. -/
def lstripP (p : Char → Bool) (l : List Char) : List Char := l.dropWhile p

/-- Python `str.rstrip('/')`: drop trailing slashes. -/
def rstripSlash (l : List Char) : List Char :=
  (l.reverse.dropWhile (· = '/')).reverse

/-- `startsWithL l pat` is Python `l.startswith(pat)`. -/
def startsWithL : List Char → List Char → Bool
  | _, [] => true
  | [], _ :: _ => false
  | a :: as, b :: bs => a = b && startsWithL as bs

/-- Split at the first occurrence of `c`: `some (before, after)`, both without `c`
separators consumed; Python `s.split(c, 1)` when `c` occurs. -/
def splitFirstAt (c : Char) : List Char → Option (List Char × List Char)
  | [] => none
  | a :: as =>
    if a = c then some ([], as)
    else (splitFirstAt c as).map (fun p => (a :: p.1, p.2))

/-- Split at the first character satisfying `p` (that character starts the second
component), as `urllib`'s `_splitnetloc` delimiter search does. -/
def splitAtFirstP (p : Char → Bool) : List Char → (List Char × List Char)
  | [] => ([], [])
  | a :: as =>
    if p a then ([], a :: as)
    else
      let r := splitAtFirstP p as
      (a :: r.1, r.2)

/-- Python `'c' in s`. -/
def containsC (c : Char) (l : List Char) : Bool := l.contains c

/-- Python whitespace split `s.split()`: maximal non-whitespace runs, in order
(`acc` holds the current word reversed). -/
def pySplitWsAux : List Char → List Char → List (List Char)
  | [], acc => if acc = [] then [] else [acc.reverse]
  | c :: cs, acc =>
    if isPyWs c then
      if acc = [] then pySplitWsAux cs [] else acc.reverse :: pySplitWsAux cs []
    else pySplitWsAux cs (c :: acc)

/-- Python `s.split()`. -/
def pySplitWs (l : List Char) : List (List Char) := pySplitWsAux l []

/-- `' '.join(words)`. -/
def joinSpace : List (List Char) → List Char
  | [] => []
  | [w] => w
  | w :: ws => w ++ ' ' :: joinSpace ws

/-- Python `', '.join(ss)`. -/
def joinCommaSpace : List String → String
  | [] => ""
  | [s] => s
  | s :: ss => s ++ ", " ++ joinCommaSpace ss

/-! ### `difflib.SequenceMatcher` (with `isjunk = None`)

`calculate_text_similarity` uses `SequenceMatcher(None, a, b).ratio()`.  The
ratio is `2 * M / (len a + len b)` where `M` is the total size of the matching
blocks found by repeated `find_longest_match` over sub-regions.  With
`isjunk = None` the junk set is empty, so the junk-extension loops of
`find_longest_match` never fire and are omitted; the `autojunk` purge of
popular elements (active only for `len b ≥ 200`) is reproduced. -/

/-- Character at index with an arbitrary default (indices stay in range). -/
def charAt (l : List Char) (i : Nat) : Char := l.getD i ⟨0, by decide⟩

/-- `b2j`: positions (ascending) of each character of `b`. -/
def b2jBuild (b : List Char) : List (Char × List Nat) :=
  (List.range b.length).foldl
    (fun m i =>
      let c := charAt b i
      match m.find? (fun e => e.1 = c) with
      | some e => m.map (fun e2 => if e2.1 = c then (c, e.2 ++ [i]) else e2)
      | none => m ++ [(c, [i])])
    []

/-- `b2j` after the `autojunk` purge of popular elements (`len b ≥ 200`). -/
def b2jPurged (b : List Char) : List (Char × List Nat) :=
  let m := b2jBuild b
  if b.length ≥ 200 then
    m.filter (fun e => !(e.2.length > b.length / 100 + 1))
  else m

/-- Positions of character `c` in `b` according to the (purged) `b2j` map. -/
def b2jGet (m : List (Char × List Nat)) (c : Char) : List Nat :=
  match m.find? (fun e => e.1 = c) with
  | some e => e.2
  | none => []

/-- Lookup in the `j2len` row map, Python `j2len.get(j-1, 0)`. -/
def j2lenGet (m : List (Nat × Nat)) (j : Nat) : Nat :=
  match m.find? (fun e => e.1 = j) with
  | some e => e.2
  | none => 0

/-- One row of the `find_longest_match` dynamic program: fold over the positions
`js` of `a[i]` in `b` (ascending, already restricted to `[blo, bhi)`), building
the new `j2len` row and updating the best block `(besti, bestj, bestsize)`. -/
def flmRow (i : Nat) (js : List Nat) (j2len : List (Nat × Nat)) :
    List (Nat × Nat) → Nat × Nat × Nat → (List (Nat × Nat)) × (Nat × Nat × Nat)
  | acc, best =>
    match js with
    | [] => (acc, best)
    | j :: rest =>
      let k := (if j = 0 then 0 else j2lenGet j2len (j - 1)) + 1
      let best2 := if k > best.2.2 then (i + 1 - k, j + 1 - k, k) else best
      flmRow i rest j2len ((j, k) :: acc) best2

/-- Extend the best block to the left while adjacent characters agree
(`while besti > alo and bestj > blo and a[besti-1] == b[bestj-1]`). -/
def extendL (a b : List Char) (alo blo : Nat) : Nat → Nat → Nat → Nat × Nat × Nat
  | 0, j, sz => (0, j, sz)
  | i + 1, j, sz =>
    if alo < i + 1 && blo < j && (charAt a i = charAt b (j - 1)) then
      extendL a b alo blo i (j - 1) (sz + 1)
    else (i + 1, j, sz)

/-- Extend the best block to the right (fuelled by `ahi`). -/
def extendR (a b : List Char) (ahi bhi i j : Nat) : Nat → Nat → Nat
  | 0, sz => sz
  | fuel + 1, sz =>
    if i + sz < ahi && j + sz < bhi && (charAt a (i + sz) = charAt b (j + sz)) then
      extendR a b ahi bhi i j fuel (sz + 1)
    else sz

/-- `find_longest_match(alo, ahi, blo, bhi)` with empty junk set. -/
def findLongestMatch (a b : List Char) (m : List (Char × List Nat))
    (alo ahi blo bhi : Nat) : Nat × Nat × Nat :=
  let dp := (List.range' alo (ahi - alo)).foldl
    (fun (st : List (Nat × Nat) × (Nat × Nat × Nat)) i =>
      let js := (b2jGet m (charAt a i)).filter (fun j => blo ≤ j && j < bhi)
      flmRow i js st.1 [] st.2)
    ([], (alo, blo, 0))
  let (bi, bj, bsz) := dp.2
  let (bi2, bj2, bsz2) := extendL a b alo blo bi bj bsz
  let bsz3 := extendR a b ahi bhi bi2 bj2 ahi bsz2
  (bi2, bj2, bsz3)

/-- Total size of all matching blocks: the recursive region decomposition of
`get_matching_blocks`, fuelled (the fuel never runs out on reachable inputs
because each sub-region is strictly smaller). -/
def totalMatched (a b : List Char) (m : List (Char × List Nat)) :
    Nat → Nat → Nat → Nat → Nat → Nat
  | 0, _, _, _, _ => 0
  | fuel + 1, alo, ahi, blo, bhi =>
    let r := findLongestMatch a b m alo ahi blo bhi
    let i := r.1; let j := r.2.1; let k := r.2.2
    if k = 0 then 0
    else k + totalMatched a b m fuel alo i blo j + totalMatched a b m fuel (i + k) ahi (j + k) bhi

/-- `SequenceMatcher(None, a, b).ratio()`. -/
def seqRatio (a b : List Char) : Rat :=
  let t := a.length + b.length
  if t = 0 then 1
  else
    let mm := totalMatched a b (b2jPurged b) (a.length + 1) 0 a.length 0 b.length
    mkRat (2 * mm) t

/-! ### Normalizer: `normalize_title`, `create_title_key`, content-hash key -/

/-- Collapse each run of ≥ 2 copies of `c` to a single `c`
(`re.sub(r'[c]{2,}', 'c', s)`; a lone `c` is untouched). -/
def collapseRuns (c : Char) : List Char → List Char
  | [] => []
  | a :: as =>
    if a = c && (as.head? == some c) then collapseRuns c as
    else a :: collapseRuns c as

/-- Collapse each maximal whitespace run to a single space (`re.sub(r'\s+', ' ', s)`). -/
def collapseWsRuns : List Char → List Char
  | [] => []
  | a :: as =>
    if isPyWs a && (as.head?.any isPyWs) then collapseWsRuns as
    else (if isPyWs a then ' ' else a) :: collapseWsRuns as

/-- The editorial prefixes stripped by `normalize_title`, in order. -/
def editorialPfxs : List (List Char) :=
  [("breaking:" : String).toList, ("news:" : String).toList, ("update:" : String).toList,
   ("exclusive:" : String).toList, ("report:" : String).toList]

/-- Strip the first matching editorial prefix (then `.strip()`), `break` after one. -/
def stripOneEditorialPfx : List (List Char) → List Char → List Char
  | [], l => l
  | p :: ps, l =>
    if startsWithL l p then stripL (l.drop p.length) else stripOneEditorialPfx ps l

/-- The separator class `[|•·]` of the source-suffix regex. -/
def isSep (c : Char) : Bool := c = '|' || c = '•' || c = '·'

/-- Split at the first element satisfying `p`: `some (before, after)` with the
matching element consumed. -/
def splitFirstAtP (p : Char → Bool) : List Char → Option (List Char × List Char)
  | [] => none
  | a :: as =>
    if p a then some ([], as)
    else (splitFirstAtP p as).map (fun q => (a :: q.1, q.2))

/-- `re.sub(r'\s*[|•·]\s*[^|•·]*$', '', s)`: the (unique, leftmost) match removes
the last separator, the whitespace run immediately before it, and everything
after it (which is separator-free because the separator is the last one). -/
def stripSourceSuffix (l : List Char) : List Char :=
  match splitFirstAtP isSep l.reverse with
  | none => l
  | some (_, r2) => ((r2.dropWhile isPyWs)).reverse

/-- `Deduplicator.normalize_title`. -/
def normTitleL (t : List Char) : List Char :=
  let n := lowerL t
  let n := stripOneEditorialPfx editorialPfxs n
  let n := stripSourceSuffix n
  let n := collapseRuns '!' n
  let n := collapseRuns '?' n
  let n := joinSpace (pySplitWs n)
  stripL n

def normalizeTitle (t : String) : String := String.mk (normTitleL t.toList)

/-- `\w` of the `re` module, ASCII fragment: alphanumeric or underscore. -/
def isWordChar (c : Char) : Bool := c.isAlphanum || c = '_'

/-- The stop-word set of `create_title_key`. -/
def commonWords : List (List Char) :=
  (["the", "a", "an", "and", "or", "but", "in", "on", "at", "to", "for",
    "of", "with", "by", "is", "are", "was", "were", "be", "been", "being",
    "have", "has", "had", "do", "does", "did", "will", "would", "could",
    "should", "may", "might", "can", "shall", "must"] : List String).map String.toList

/-- `Deduplicator.create_title_key` applied to an (already normalized) title. -/
def createTitleKeyL (nt : List Char) : List Char :=
  let kws := (pySplitWs nt).filterMap (fun w =>
    let cw := w.filter isWordChar
    if cw.length > 2 && !(commonWords.contains (lowerL cw)) && !(cw.all Char.isDigit)
    then some (lowerL cw) else none)
  joinSpace (kws.take 5)

def createTitleKey (nt : String) : String := String.mk (createTitleKeyL nt.toList)

/-- The normalization inside `calculate_content_hash`; the MD5 digest of this
text is modelled by the text itself (a collision-free stand-in for the hash,
used only as an exact-duplicate bucketing key). -/
def contentHashKey (c : List Char) : List Char :=
  (collapseWsRuns (stripL (lowerL c))).filter (fun x => isWordChar x || isPyWs x)

/-! ### `urllib.parse` and `normalize_url`

`urlsplit`/`urlparse` of CPython, on the ASCII fragment: the NFKC netloc check
(`_checknetloc`) is a no-op on ASCII and is modelled as a no-op; bracketed
(IPv6/IPvFuture) hosts are modelled as always raising, while CPython accepts
the well-formed ones — every input considered in this development is
bracket-free, where the two agree. -/

def schemeChars : List Char :=
  ("abcdefghijklmnopqrstuvwxyzABCDEFGHIJKLMNOPQRSTUVWXYZ0123456789+-." : String).toList

/-- `_WHATWG_C0_CONTROL_OR_SPACE`. -/
def isC0OrSpace (c : Char) : Bool := c.toNat ≤ 0x20

/-- `_UNSAFE_URL_BYTES_TO_REMOVE` membership. -/
def isUnsafeUrlByte (c : Char) : Bool := c = '\t' || c = '\r' || c = '\n'

structure UrlParts where
  scheme : List Char
  netloc : List Char
  path : List Char
  params : List Char
  query : List Char
  fragment : List Char
deriving Repr, DecidableEq

/-- `urllib.parse.urlsplit` (scheme, netloc, path, query, fragment). -/
def pyUrlsplit (url0 : List Char) :
    Except Unit (List Char × List Char × List Char × List Char × List Char) := do
  let url1 := lstripP isC0OrSpace url0
  let url2 := url1.filter (fun c => !isUnsafeUrlByte c)
  let (scheme, rest) :=
    match splitFirstAt ':' url2 with
    | some (pre, post) =>
      if pre.length > 0 && (charAt url2 0).isAlpha
          && pre.all (fun c => schemeChars.contains c)
      then (lowerL pre, post) else (([] : List Char), url2)
    | none => ([], url2)
  let (netloc, rest2) ←
    if startsWithL rest ("//" : String).toList then
      let s := splitAtFirstP (fun c => c = '/' || c = '?' || c = '#') (rest.drop 2)
      if containsC '[' s.1 || containsC ']' s.1 then Except.error ()
      else pure (s.1, s.2)
    else pure (([] : List Char), rest)
  let (rest3, fragment) :=
    match splitFirstAt '#' rest2 with
    | some (a, b) => (a, b)
    | none => (rest2, ([] : List Char))
  let (path, query) :=
    match splitFirstAt '?' rest3 with
    | some (a, b) => (a, b)
    | none => (rest3, ([] : List Char))
  pure (scheme, netloc, path, query, fragment)

/-- The schemes for which `urlparse` separates `;params` from the path. -/
def usesParams : List (List Char) :=
  (["", "ftp", "hdl", "prospero", "http", "imap", "https", "shttp", "rtsp",
    "rtspu", "sip", "sips", "mms", "sftp", "tel"] : List String).map String.toList

/-- `urllib.parse._splitparams`: split at the first `;` at/after the last `/`
(or the first `;` overall when there is no `/`). -/
def splitParams (url : List Char) : List Char × List Char :=
  match splitFirstAt '/' url.reverse with
  | some (revTail, revHead) =>
    match splitFirstAt ';' revTail.reverse with
    | none => (url, [])
    | some (t1, t2) => (revHead.reverse ++ '/' :: t1, t2)
  | none =>
    match splitFirstAt ';' url with
    | none => (url, [])
    | some (a, b) => (a, b)

/-- `urllib.parse.urlparse`. -/
def pyUrlparse (url : List Char) : Except Unit UrlParts := do
  let (scheme, netloc, rest, query, fragment) ← pyUrlsplit url
  let (path, params) :=
    if rest ≠ [] && containsC ';' rest && usesParams.contains scheme
    then splitParams rest else (rest, [])
  pure ⟨scheme, netloc, path, params, query, fragment⟩

/-- `if domain.startswith('www.'): domain = domain[4:]`. -/
def wwwStrip (domain : List Char) : List Char :=
  if startsWithL domain ("www." : String).toList then domain.drop 4 else domain

/-- `Deduplicator.normalize_url`. -/
def normalizeUrlL (url : List Char) : List Char :=
  if url = [] then []
  else
    match pyUrlparse url with
    | .error _ => stripL (lowerL url)
    | .ok p =>
      let domain := wwwStrip (lowerL p.netloc)
      let path := lowerL (rstripSlash p.path)
      p.scheme ++ ("://" : String).toList ++ domain ++ path

def normalizeUrl (s : String) : String := String.mk (normalizeUrlL s.toList)

/-! ### The article record

A Python article dictionary becomes a structure of `Option` fields: `none` is
an absent key, `a.get('k', d)` is `Option.getD`, and the raising access
`a['k']` is a bind in `Except Unit`.  Scores are `Rat`; timestamps
(`datetime` values) are integer seconds, with `datetime.now()` passed
explicitly as `now` (ISO-string date fields are modelled by their parsed
value). -/

structure TwitterMetrics where
  engagement_score : Option Rat := none
deriving Repr, DecidableEq, Inhabited

structure Article where
  title : Option String := none
  content_excerpt : Option String := none
  url : Option String := none
  source_name : Option String := none
  source_type : Option String := none
  tags : Option (List String) := none
  relevance_score : Option Rat := none
  published_at : Option Int := none
  published_date : Option Int := none
  scraped_at : Option Int := none
  key_themes : Option (List String) := none
  twitter_metrics : Option TwitterMetrics := none
deriving Repr, DecidableEq, Inhabited

/-! ### SimilarityScorer and Deduplicator -/

/-- `Deduplicator.calculate_text_similarity`. -/
def calculateTextSimilarity (t1 t2 : String) : Rat :=
  if t1 = "" || t2 = "" then 0
  else seqRatio (lowerL t1.toList) (lowerL t2.toList)

/-- `Deduplicator.calculate_content_similarity`. -/
def calculateContentSimilarity (a1 a2 : Article) : Rat :=
  let c1 := a1.content_excerpt.getD ""
  let c2 := a2.content_excerpt.getD ""
  if c1 = "" || c2 = "" then 0
  else
    let t1 := normalizeTitle (a1.title.getD "")
    let t2 := normalizeTitle (a2.title.getD "")
    qadd (qmul (calculateTextSimilarity t1 t2) (mkRat 6 10))
      (qmul (calculateTextSimilarity c1 c2) (mkRat 4 10))

/-- The `source_priority` map of `should_replace_article` (`.get(…, 0)`). -/
def sourcePriority (st : String) : Nat :=
  if st = "rss" then 3 else if st = "gmail_newsletter" then 2
  else if st = "twitter" then 1 else 0

/-- `Deduplicator.should_replace_article`. -/
def shouldReplaceArticle (newA existing : Article) : Bool :=
  let ns := newA.relevance_score.getD 0
  let es := existing.relevance_score.getD 0
  if ns ≠ es then ns > es
  else
    let nl : Int := (newA.content_excerpt.getD "").length
    let el : Int := (existing.content_excerpt.getD "").length
    if (nl - el).natAbs > 100 then nl > el
    else
      let np := sourcePriority (newA.source_type.getD "")
      let ep := sourcePriority (existing.source_type.getD "")
      if np ≠ ep then np > ep
      else
        match newA.published_at, existing.published_at with
        | some nd, some ed => nd > ed
        | _, _ => false

/-- `s2 in s1` (Python substring containment). -/
def hasSubstr : List Char → List Char → Bool
  | l, p => startsWithL l p ||
      match l with
      | [] => false
      | _ :: t => hasSubstr t p

/-- Allow-list of `calculate_article_quality_score`. -/
def highQualitySources : List String :=
  ["harvard business review", "mit technology review", "venturebeat",
   "techcrunch", "the register"]

/-- `Deduplicator.calculate_article_quality_score`; the recency bonus reads the
wall clock (`datetime.now()`), passed here as `now`; `(now - published_at).days`
is floored division of the second count. -/
def calculateArticleQualityScore (now : Int) (a : Article) : Rat :=
  let score : Rat := qmul (a.relevance_score.getD 50) (mkRat 4 10)
  let cl := (a.content_excerpt.getD "").length
  let score := qadd score (if cl > 500 then 20 else if cl > 200 then 10 else if cl > 100 then 5 else 0)
  let st := a.source_type.getD ""
  let score := qadd score
    (if st = "rss" then 15 else if st = "gmail_newsletter" then 10 else if st = "twitter" then 5 else 0)
  let sn := lowerL (a.source_name.getD "").toList
  let score := qadd score (if highQualitySources.any (fun q => hasSubstr sn q.toList) then 15 else 0)
  match a.published_at with
  | none => score
  | some p =>
    let ageDays := (now - p).fdiv 86400
    qadd score (if ageDays ≤ 1 then 10 else if ageDays ≤ 3 then 5 else 0)

/-- Append if not already present: the insertion-order model of building a
Python `set` and listing it (CPython's set iteration order is hash-dependent;
insertion order is the deterministic stand-in used throughout). -/
def insertNew (acc : List String) (x : String) : List String :=
  if acc.contains x then acc else acc ++ [x]

/-- One step of `merge_article_information`'s longer-content adoption loop
(`acl > bcl * 1.5` is the integer comparison `2*acl > 3*bcl`). -/
def contentAdoptStep (bestIdx : Nat) (st : Article × Nat) (p : Nat × Article) : Article × Nat :=
  if p.1 = bestIdx then st
  else
    let acl := (p.2.content_excerpt.getD "").length
    if 2 * acl > 3 * st.2 then ({ st.1 with content_excerpt := p.2.content_excerpt }, acl)
    else st

/-- `Deduplicator.merge_article_information`, with the winner given by its
index in the group (the `is not best_article` identity tests become index
tests). -/
def mergeArticleInformation (bestIdx : Nat) (group : List Article) : Article :=
  let best := group.getD bestIdx default
  let initTags := (best.tags.getD []).foldl insertNew []
  let allTags := group.enum.foldl
    (fun acc p =>
      if p.1 = bestIdx then acc else (p.2.tags.getD []).foldl insertNew acc)
    initTags
  let merged := { best with tags := some (allTags.take 20) }
  (group.enum.foldl (contentAdoptStep bestIdx)
    (merged, (merged.content_excerpt.getD "").length)).1

/-- One step of the running-first-maximum scan. -/
def fmiStep (b : Nat × Rat) (p : Nat × Rat) : Nat × Rat :=
  if p.2 > b.2 then (p.1 + 1, p.2) else b

/-- Index of the first maximum (Python's stable `sort(reverse=True)` followed
by taking the head). -/
def firstMaxIdx : List Rat → Nat
  | [] => 0
  | s :: ss => (ss.enum.foldl fmiStep (0, s)).1

/-- `Deduplicator.select_best_from_group`. -/
def selectBestFromGroup (now : Int) (group : List Article) : Article :=
  match group with
  | [] => default
  | [a] => a
  | _ =>
    let bi := firstMaxIdx (group.map (calculateArticleQualityScore now))
    mergeArticleInformation bi group

/-- The grouping key of `handle_cross_source_duplicates`. -/
def keyOfArticle (a : Article) : String :=
  createTitleKey (normalizeTitle (a.title.getD ""))

/-- `Deduplicator.handle_cross_source_duplicates`: group by title key (keys in
first-occurrence order, as a Python dict), keep the best of each group. -/
def handleCrossSourceDuplicates (now : Int) (arts : List Article) : List Article :=
  if arts.length ≤ 1 then arts
  else
    let keys := (arts.map keyOfArticle).foldl insertNew []
    keys.map (fun k => selectBestFromGroup now (arts.filter (fun a => keyOfArticle a = k)))

/-- One iteration of the `remove_url_duplicates` loop (state: seen normalized
URLs, kept articles). -/
def urlStep (st : List String × List Article) (a : Article) : List String × List Article :=
  let url := String.mk (stripL (a.url.getD "").toList)
  if url = "" then (st.1, st.2 ++ [a])
  else
    let nu := normalizeUrl url
    if st.1.contains nu then st else (st.1 ++ [nu], st.2 ++ [a])

/-- `Deduplicator.remove_url_duplicates`. -/
def removeUrlDuplicates (arts : List Article) : List Article :=
  (arts.foldl urlStep ([], [])).2

/-- One iteration of the `remove_title_duplicates` loop (state: accepted
normalized titles, kept articles). -/
def titleStep (st : List String × List Article) (a : Article) : List String × List Article :=
  let t := String.mk (stripL (a.title.getD "").toList)
  if t = "" then (st.1, st.2 ++ [a])
  else
    let nt := normalizeTitle t
    if st.1.any (fun et => calculateTextSimilarity nt et > mkRat 9 10) then st
    else (st.1 ++ [nt], st.2 ++ [a])

/-- `Deduplicator.remove_title_duplicates`. -/
def removeTitleDuplicates (arts : List Article) : List Article :=
  (arts.foldl titleStep ([], [])).2

/-- Output slots of `remove_content_duplicates`: articles kept with empty
content are stored directly; others are references into the `processed` list,
which the replacement policy may overwrite in place (the Python code patches
`unique_articles` whenever it patches `processed_articles`, so a reference
model is exact; `processed` never holds two equal articles, hence
`list.index`'s first-equal lookup coincides with the scan position). -/
inductive CToken where
  | plain (a : Article)
  | procRef (k : Nat)
deriving Repr, DecidableEq

structure CDState where
  hashes : List (List Char)
  processed : List Article
  out : List CToken
deriving Repr, DecidableEq

/-- Scan position of the first processed article more similar than `θ`. -/
def firstSimIdx (θ : Rat) (cur : Article) (proc : List Article) : Option Nat :=
  (proc.enum.find? (fun p => calculateContentSimilarity cur p.2 > θ)).map (·.1)

/-- One iteration of the `remove_content_duplicates` loop. -/
def cdStep (θ : Rat) (st : CDState) (cur : Article) : CDState :=
  let c := stripL (cur.content_excerpt.getD "").toList
  if c = [] then { st with out := st.out ++ [.plain cur] }
  else
    let h := contentHashKey c
    if st.hashes.contains h then st
    else
      match firstSimIdx θ cur st.processed with
      | some i =>
        if shouldReplaceArticle cur (st.processed.getD i default)
        then { st with processed := st.processed.set i cur }
        else st
      | none =>
        { hashes := st.hashes ++ [h], processed := st.processed ++ [cur],
          out := st.out ++ [.procRef st.processed.length] }

/-- `Deduplicator.remove_content_duplicates`. -/
def removeContentDuplicates (θ : Rat) (arts : List Article) : List Article :=
  if arts.length ≤ 1 then arts
  else
    let st := arts.foldl (cdStep θ) ⟨[], [], []⟩
    st.out.map (fun t =>
      match t with
      | .plain a => a
      | .procRef k => st.processed.getD k default)

/-- `Deduplicator.remove_duplicates` (`dedupe` of the specification): the four
passes in order, with similarity threshold `θ` (default `0.85`) and the wall
clock `now` read by the cross-source quality scoring. -/
def removeDuplicates (θ : Rat) (now : Int) (arts : List Article) : List Article :=
  handleCrossSourceDuplicates now
    (removeContentDuplicates θ (removeTitleDuplicates (removeUrlDuplicates arts)))

/-! ### `MultiStageDigestProcessor`

Oracle calls (`AsyncOpenAI` completions followed by code-fence stripping and
`json.loads`) are modelled by their observable outcome: `none` is any raised
exception or parse failure, `some` is a successfully parsed reply.  The
database lookup `_get_recently_selected_articles` (whose own failures are
swallowed into an empty set) is modelled as the `recently` input. -/

/-- Python dict bracket access `d['k']`: `KeyError` when the key is absent. -/
def bracketGet {α : Type} : Option α → Except Unit α
  | some v => pure v
  | none => Except.error ()

/-- `mapM` in `Except Unit`, failing at the first raising element. -/
def mapME {α β : Type} (f : α → Except Unit β) : List α → Except Unit (List β)
  | [] => pure []
  | a :: as => do
    let b ← f a
    let bs ← mapME f as
    pure (b :: bs)

/-- `filter` by an `Except`-valued predicate (a Python list comprehension whose
condition may raise). -/
def filterME {α : Type} (p : α → Except Unit Bool) : List α → Except Unit (List α)
  | [] => pure []
  | a :: as => do
    let b ← p a
    let rest ← filterME p as
    pure (if b then a :: rest else rest)

/-- `mapM` in `Option` (used for Python list indexing that may raise `IndexError`). -/
def mapMO {α β : Type} (f : α → Option β) : List α → Option (List β)
  | [] => some []
  | a :: as => do
    let b ← f a
    let bs ← mapMO f as
    some (b :: bs)

/-- Python `s[:n]`. -/
def takeS (n : Nat) (s : String) : String := String.mk (s.toList.take n)

/-- Rendering of an optional engagement score
(`article.get('twitter_metrics', {}).get('engagement_score', 'N/A')`). -/
def engagementStr (a : Article) : String :=
  match (a.twitter_metrics.getD {}).engagement_score with
  | some r => toString r.num
  | none => "N/A"

/-- `MultiStageDigestProcessor._prepare_article_summary`: the compact textual
form sent to the shortlist oracle; raises on a missing `title`, `source_name`,
`source_type` or `url` (layout whitespace of the f-string elided). -/
def prepareArticleSummary (a : Article) : Except Unit String := do
  let t ← bracketGet a.title
  let sn ← bracketGet a.source_name
  let st ← bracketGet a.source_type
  let u ← bracketGet a.url
  pure ("TITLE: " ++ t ++ "\nSOURCE: " ++ sn ++ " (" ++ st ++ ")\nCONTENT: "
    ++ takeS 300 (a.content_excerpt.getD "") ++ "...\nURL: " ++ u
    ++ "\nTAGS: " ++ joinCommaSpace (a.tags.getD [])
    ++ (if st = "twitter" then "\nENGAGEMENT: " ++ engagementStr a else ""))

/-- The detailed per-candidate text of `stage_2_final_selection` (same raising
fields as the compact form; dict rendering of the metrics elided). -/
def prepareDetailedSummary (a : Article) : Except Unit String := do
  let t ← bracketGet a.title
  let sn ← bracketGet a.source_name
  let st ← bracketGet a.source_type
  let u ← bracketGet a.url
  pure ("TITLE: " ++ t ++ "\nSOURCE: " ++ sn ++ " (" ++ st ++ ")\nFULL CONTENT: "
    ++ a.content_excerpt.getD "" ++ "\nURL: " ++ u
    ++ "\nTHEMES: " ++ joinCommaSpace (a.key_themes.getD [])
    ++ "\nPUBLISHED: " ++ (match a.published_date with
        | some d => toString d
        | none => "Unknown")
    ++ (if st = "twitter" then "\nTWITTER ENGAGEMENT: " ++ engagementStr a else ""))

/-- The batch start offsets `range(0, n, 50)` of stage-1 filtering. -/
def batchStarts (n : Nat) : List Nat := (List.range ((n + 49) / 50)).map (· * 50)

/-- The concatenated per-batch index selection of `stage_1_filtering`: a parsed
reply contributes its indices offset by the batch start; a failed call or parse
contributes the fallback `range(batch_start, batch_start + min(10, batch_len))`. -/
def stage1SelectIndices (oracle : Nat → Option (List Int)) (n : Nat) : List Int :=
  (batchStarts n).flatMap (fun bs =>
    match oracle bs with
    | some idxs => idxs.map (fun i => i + (bs : Int))
    | none => (List.range (min 10 (min 50 (n - bs)))).map (fun k => ((bs + k : Nat) : Int)))

/-- The index post-processing and selection of `stage_1_filtering`: keep the
in-range indices, truncate to 20, read off the candidates. -/
def stage1Core (oracle : Nat → Option (List Int)) (cands : List Article) : List Article :=
  let n := cands.length
  let valid := (stage1SelectIndices oracle n).filter (fun i => decide (0 ≤ i) && decide (i < (n : Int)))
  (valid.take 20).filterMap (fun i => cands.get? i.toNat)

/-- The AI-selection part of `MultiStageDigestProcessor.stage_1_filtering`
(after diversity filtering): build all candidate summaries, then run the
batched oracle selection with per-batch fallback. -/
def stage1Select (oracle : Nat → Option (List Int)) (cands : List Article) :
    Except Unit (List Article) := do
  let _ ← mapME prepareArticleSummary cands
  pure (stage1Core oracle cands)

/-- Python list indexing `l[i]` (negative indices address from the end;
`none` is an `IndexError`). -/
def pyIndex {α : Type} (l : List α) (i : Int) : Option α :=
  if 0 ≤ i then l.get? i.toNat
  else if -(l.length : Int) ≤ i then l.get? ((l.length : Int) + i).toNat
  else none

/-- A parsed stage-2 oracle reply (all required keys present and well-typed;
any other shape is the `none` case of the oracle). -/
structure SummaryFields where
  title : String := ""
  detailed_summary : String := ""
  source : String := ""
  url : String := ""
deriving Repr, DecidableEq, Inhabited

structure Stage2Reply where
  selected_indices : List Int
  daily_summary : String := ""
  key_insights : List String := []
  article_summaries : List SummaryFields := []
deriving Repr, DecidableEq, Inhabited

structure Stage2Result where
  selected : List Article
  digest_text : String
  key_insights : List String
  enhanced_summaries : List SummaryFields
deriving Repr, DecidableEq, Inhabited

def joinNl : List String → String
  | [] => ""
  | [s] => s
  | s :: ss => s ++ "\n" ++ joinNl ss

/-- The deterministic stage-2 fallback: first 5 candidates, a fallback digest
line (its `date.today()` rendering elided) and the visible degraded-mode
insight. -/
def stage2Fallback (cands : List Article) : Stage2Result :=
  { selected := cands.take 5
    digest_text := "Daily digest: " ++ toString (cands.take 5).length
      ++ " articles selected (fallback mode)"
    key_insights := ["Fallback mode - manual review needed"]
    enhanced_summaries := [] }

/-- The body of the `try` block of `stage_2_final_selection` given a parsed
reply: any raise inside it (including an `IndexError` from
`[filtered_articles[i] for i in result["selected_indices"]]`) falls back. -/
def stage2TryBody (reply : Stage2Reply) (cands : List Article) : Except Unit Stage2Result := do
  let sel ← bracketGet (mapMO (pyIndex cands) reply.selected_indices)
  let enhanced ← mapME
    (fun (p : SummaryFields × Article) => do
      let sn ← bracketGet p.2.source_name
      let st ← bracketGet p.2.source_type
      let u ← bracketGet p.2.url
      pure { p.1 with source := sn ++ " (" ++ st ++ ")", url := u })
    (reply.article_summaries.zip sel)
  let lines ← mapME
    (fun (p : Nat × Article) => do
      let t ← bracketGet p.2.title
      let sn ← bracketGet p.2.source_name
      pure (toString (p.1 + 1) ++ ". " ++ t ++ " (" ++ sn ++ ")"))
    sel.enum
  pure
    { selected := sel
      digest_text := reply.daily_summary ++ "\n\nKEY INSIGHTS:\n"
        ++ joinNl (reply.key_insights.map (fun s => "• " ++ s))
        ++ "\n\nSELECTED ARTICLES:\n" ++ joinNl lines
      key_insights := reply.key_insights
      enhanced_summaries := enhanced }

/-- `MultiStageDigestProcessor.stage_2_final_selection`: detailed summaries are
built before the `try` (their raises propagate); everything inside the `try`
falls back deterministically. -/
def stage2Select (oracle : Option Stage2Reply) (cands : List Article) :
    Except Unit Stage2Result := do
  let _ ← mapME prepareDetailedSummary cands
  match oracle with
  | none => pure (stage2Fallback cands)
  | some reply =>
    match stage2TryBody reply cands with
    | .ok r => pure r
    | .error _ => pure (stage2Fallback cands)

/-- The recency key of `_apply_diversity_filtering`'s sort:
`published_date`, else `scraped_at`, else `datetime.now()` (ISO strings are
modelled by their parsed timestamps). -/
def getSortKey (now : Int) (a : Article) : Int :=
  match a.published_date with
  | some t => t
  | none => a.scraped_at.getD now

/-- `MultiStageDigestProcessor._apply_diversity_filtering`: drop recently
selected URLs (raising on a missing `url`), group by `source_name` (raising
when missing), cap each source at `max(2, len(fresh) // num_sources)` keeping
the most recent (stable descending sort, as Python's `list.sort`). -/
def applyDiversityFiltering (now : Int) (recently : List String) (arts : List Article) :
    Except Unit (List Article) := do
  let fresh ← filterME
    (fun a => do
      let u ← bracketGet a.url
      pure (!recently.contains u))
    arts
  let pairs ← mapME
    (fun a => do
      let s ← bracketGet a.source_name
      pure (s, a))
    fresh
  let sources := (pairs.map (·.1)).foldl insertNew []
  let maxPerSource := if sources.length = 0 then fresh.length
    else max 2 (fresh.length / sources.length)
  pure (sources.flatMap (fun s =>
    ((((pairs.filter (fun p => p.1 = s)).map (·.2)).mergeSort
        (fun x y => decide (getSortKey now y ≤ getSortKey now x))).take maxPerSource)))

/-- The fresh pool after dropping recently-selected URLs (the total reading of
the filter, valid once every `url` is present). -/
def freshArticles (recently : List String) (arts : List Article) : List Article :=
  arts.filter (fun a => !recently.contains (a.url.getD ""))

/-- The distinct source names, in first-occurrence order (the `by_source` dict
keys). -/
def sourcesOf (arts : List Article) : List String :=
  (arts.map (fun a => a.source_name.getD "")).foldl insertNew []

/-- `max_per_source = max(2, len(fresh) // num_sources)` (all of `fresh` when
there are no sources). -/
def maxPerSource (recently : List String) (arts : List Article) : Nat :=
  let fresh := freshArticles recently arts
  let ns := (sourcesOf fresh).length
  if ns = 0 then fresh.length else max 2 (fresh.length / ns)

/-- The total reading of `_apply_diversity_filtering` (equal to the raising
version whenever every `url` and `source_name` is present). -/
def diversityCore (now : Int) (recently : List String) (arts : List Article) : List Article :=
  let fresh := freshArticles recently arts
  (sourcesOf fresh).flatMap (fun s =>
    ((fresh.filter (fun a => a.source_name.getD "" = s)).mergeSort
      (fun x y => decide (getSortKey now y ≤ getSortKey now x))).take (maxPerSource recently arts))

/-- `MultiStageDigestProcessor.stage_1_filtering`: recently-selected exclusion
and diversity filtering, then (unless nothing remains) the batched AI
selection. -/
def stage1Filtering (now : Int) (recently : List String)
    (oracle1 : Nat → Option (List Int)) (arts : List Article) :
    Except Unit (List Article) := do
  let diverse ← applyDiversityFiltering now recently arts
  if diverse.length = 0 then pure []
  else stage1Select oracle1 diverse

/-- The digest record returned by `create_daily_digest` (the empty-pool early
return carries no `stage_1_count`, `final_count` or `article_summaries` keys,
hence the `Option`s). -/
structure DigestResult where
  selected_articles : List Article
  digest_text : String
  key_insights : List String
  article_summaries : Option (List SummaryFields)
  total_processed : Nat
  stage_1_count : Option Nat
  final_count : Option Nat
deriving Repr, DecidableEq, Inhabited

/-- `MultiStageDigestProcessor.create_daily_digest`: the orchestrated
two-stage run. -/
def createDailyDigest (now : Int) (recently : List String)
    (oracle1 : Nat → Option (List Int)) (oracle2 : Option Stage2Reply)
    (arts : List Article) : Except Unit DigestResult :=
  if arts.length = 0 then
    pure
      { selected_articles := []
        digest_text := "No articles available for digest"
        key_insights := []
        article_summaries := none
        total_processed := 0
        stage_1_count := none
        final_count := none }
  else do
    let stage1Arts ← stage1Filtering now recently oracle1 arts
    let r2 ← stage2Select oracle2 stage1Arts
    pure
      { selected_articles := r2.selected
        digest_text := r2.digest_text
        key_insights := r2.key_insights
        article_summaries := some r2.enhanced_summaries
        total_processed := arts.length
        stage_1_count := some stage1Arts.length
        final_count := some r2.selected.length }

/-- The three articles refuting idempotence of `dedupe`: `ceB`'s long content
is adopted by the group winner `ceA` during the cross-source merge, after which
`ceA` has become near-duplicate with `ceC`; only a second run removes `ceC`. -/
def ceA : Article :=
  { title := some "alpha beta gamma", content_excerpt := some "zzzz",
    url := some "http://a.com/1", relevance_score := some 90 }

def ceB : Article :=
  { title := some "the 123 alpha of beta 45 gamma a",
    content_excerpt := some "the quick brown fox jumps over dog",
    url := some "http://a.com/2", relevance_score := some 10 }

def ceC : Article :=
  { title := some "alpha beta gaxya",
    content_excerpt := some "the quick brown fox jumps over cat",
    url := some "http://a.com/3", relevance_score := some 40 }

/-- Invariant carried by the `remove_content_duplicates` fold: every processed
article and every directly-kept article comes from the input, and every
reference token is in range. -/
def CDInv (orig : List Article) (st : CDState) : Prop :=
  (∀ x ∈ st.processed, x ∈ orig) ∧
  (∀ t ∈ st.out, ∀ a, t = CToken.plain a → a ∈ orig) ∧
  (∀ k, CToken.procRef k ∈ st.out → k < st.processed.length)

/-- The two articles exhibiting clock dependence: they share the grouping key
`"alpha beta gamma"`, and the winner of the cross-source merge flips as `ceD`'s
recency bonus (+10 within a day of `published_at = 0`) expires. -/
def ceD : Article :=
  { title := some "alpha beta gamma", relevance_score := some 50, published_at := some 0 }

def ceE : Article :=
  { title := some "the 99 alpha beta gamma", relevance_score := some 70 }

/-! ## Claim C7 -/

/-- The pair refuting the unconditional similarity formula: identical titles,
one empty excerpt — the code short-circuits to `0.0`, the formula gives `0.6`. -/
def ceF : Article := { title := some "abc", content_excerpt := some "" }

def ceG : Article := { title := some "abc", content_excerpt := some "hello" }

/-! ## Lemmas: success and membership of the `Except`-level pipeline -/

/-- The four article fields whose dictionary accesses `article['…']` occur in
the digest pipeline. -/
def FieldsPresent (a : Article) : Prop :=
  a.title.isSome ∧ a.source_name.isSome ∧ a.source_type.isSome ∧ a.url.isSome

instance (a : Article) : Decidable (FieldsPresent a) := by
  unfold FieldsPresent
  infer_instance

/-- The article triggering the escaping `KeyError`: `title` and `source_type`
present and non-empty, `url` absent. -/
def ceH : Article := { title := some "t", source_type := some "rss" }

/-- A pool of 20 fully-populated candidates. -/
def ce20 : List Article :=
  (List.range 20).map (fun i =>
    { title := some (toString i), source_name := some "s", source_type := some "rss",
      url := some (toString i) })

/-- A fully-populated candidate for the stage-selector examples. -/
def ceJ (i : Nat) : Article :=
  { title := some (toString i), source_name := some "s", source_type := some "rss",
    url := some (toString i) }

/-- The concrete pool for the C8 witness: source "A" contributes 3 fresh
articles against a cap of 2. -/
def ceK (src : String) (i : Nat) (t : Int) : Article :=
  { title := some (toString i), source_name := some src, source_type := some "rss",
    url := some (src ++ toString i), published_date := some t }

/-! ## C3 and C9: well-formed URL vocabulary and normalizer idempotence -/

/-! ### Well-formed URL builders (spec-side vocabulary for C3/C9) -/

/-- `[]` for `none`, `c :: q` for `some q`: the optional `?query` / `#fragment`
tail of a URL. -/
def optPre (c : Char) : Option (List Char) → List Char
  | none => []
  | some q => c :: q

/-- `scheme://host path ?query #fragment` as a character list. -/
def mkUrlL (s hst p : List Char) (q f : Option (List Char)) : List Char :=
  s ++ ':' :: '/' :: '/' :: (hst ++ p ++ optPre '?' q ++ optPre '#' f)

/-- A well-formed scheme: nonempty, alphabetic first character, all characters
from `schemeChars`. -/
def goodSchemeB : List Char → Bool
  | [] => false
  | c :: cs => c.isAlpha && (c :: cs).all (fun x => schemeChars.contains x)

/-- Host characters: no delimiter, bracket, unsafe byte or whitespace. -/
def goodHostChar (c : Char) : Bool :=
  !(c = '/' || c = '?' || c = '#' || c = '[' || c = ']' || isUnsafeUrlByte c || isPyWs c)

def goodHostB (hst : List Char) : Bool := hst.all goodHostChar

/-- Path characters: no query/fragment/params delimiter, unsafe byte or whitespace. -/
def goodPathChar (c : Char) : Bool :=
  !(c = '?' || c = '#' || c = ';' || isUnsafeUrlByte c || isPyWs c)

/-- A well-formed path: absent or `/`-rooted, with well-formed characters. -/
def goodPathB (p : List Char) : Bool :=
  (p.isEmpty || p.head? == some '/') && p.all goodPathChar

def goodQueryChar (c : Char) : Bool := !(c = '#' || isUnsafeUrlByte c || isPyWs c)

def goodQueryB : Option (List Char) → Bool
  | none => true
  | some l => l.all goodQueryChar

def goodFragChar (c : Char) : Bool := !(isUnsafeUrlByte c || isPyWs c)

def goodFragB : Option (List Char) → Bool
  | none => true
  | some l => l.all goodFragChar

/-! ## Theorems -/

theorem qmul_eq_mul (x y : Rat) : qmul x y = x * y := by
  rw [qmul, Rat.mul_def, Rat.normalize_eq_mkRat]

theorem qadd_eq_add (x y : Rat) : qadd x y = x + y := by
  rw [qadd, Rat.add_def, Rat.normalize_eq_mkRat]

/-! ## Lemmas: computation rules for the `Except Unit` monad -/

@[simp]
theorem except_bind_ok {α β : Type} (a : α) (f : α → Except Unit β) :
    (Except.ok a >>= f : Except Unit β) = f a := rfl

@[simp]
theorem except_bind_err {α β : Type} (e : Unit) (f : α → Except Unit β) :
    (Except.error e >>= f : Except Unit β) = Except.error e := rfl

@[simp]
theorem except_pure_eq {α : Type} (a : α) : (pure a : Except Unit α) = Except.ok a := rfl

theorem bind_ok_iff {α β : Type} {e : Except Unit α} {f : α → Except Unit β} {r : β} :
    (e >>= f) = .ok r ↔ ∃ v, e = .ok v ∧ f v = .ok r := by
  cases e with
  | error u => simp
  | ok v => simp

/-! ## Lemmas: length monotonicity of the deduplication passes -/

theorem urlStep_len (st : List String × List Article) (a : Article) :
    ((urlStep st a).2).length ≤ st.2.length + 1 := by
  unfold urlStep
  dsimp only
  repeat' split
  all_goals simp

theorem foldl_urlStep_len (arts : List Article) :
    ∀ st : List String × List Article,
      ((arts.foldl urlStep st).2).length ≤ st.2.length + arts.length := by
  induction arts with
  | nil => intro st; simp
  | cons a as ih =>
    intro st
    calc ((as.foldl urlStep (urlStep st a)).2).length
        ≤ (urlStep st a).2.length + as.length := ih _
      _ ≤ st.2.length + 1 + as.length := by have := urlStep_len st a; omega
      _ = st.2.length + (a :: as).length := by simp; omega

theorem removeUrlDuplicates_len (arts : List Article) :
    (removeUrlDuplicates arts).length ≤ arts.length := by
  have := foldl_urlStep_len arts ([], [])
  simpa [removeUrlDuplicates] using this

theorem titleStep_len (st : List String × List Article) (a : Article) :
    ((titleStep st a).2).length ≤ st.2.length + 1 := by
  unfold titleStep
  dsimp only
  repeat' split
  all_goals simp

theorem foldl_titleStep_len (arts : List Article) :
    ∀ st : List String × List Article,
      ((arts.foldl titleStep st).2).length ≤ st.2.length + arts.length := by
  induction arts with
  | nil => intro st; simp
  | cons a as ih =>
    intro st
    calc ((as.foldl titleStep (titleStep st a)).2).length
        ≤ (titleStep st a).2.length + as.length := ih _
      _ ≤ st.2.length + 1 + as.length := by have := titleStep_len st a; omega
      _ = st.2.length + (a :: as).length := by simp; omega

theorem removeTitleDuplicates_len (arts : List Article) :
    (removeTitleDuplicates arts).length ≤ arts.length := by
  have := foldl_titleStep_len arts ([], [])
  simpa [removeTitleDuplicates] using this

theorem cdStep_out_len (θ : Rat) (st : CDState) (a : Article) :
    ((cdStep θ st a).out).length ≤ st.out.length + 1 := by
  unfold cdStep
  dsimp only
  repeat' split
  all_goals simp

theorem foldl_cdStep_out_len (θ : Rat) (arts : List Article) :
    ∀ st : CDState, ((arts.foldl (cdStep θ) st).out).length ≤ st.out.length + arts.length := by
  induction arts with
  | nil => intro st; simp
  | cons a as ih =>
    intro st
    calc ((as.foldl (cdStep θ) (cdStep θ st a)).out).length
        ≤ (cdStep θ st a).out.length + as.length := ih _
      _ ≤ st.out.length + 1 + as.length := by have := cdStep_out_len θ st a; omega
      _ = st.out.length + (a :: as).length := by simp; omega

theorem removeContentDuplicates_len (θ : Rat) (arts : List Article) :
    (removeContentDuplicates θ arts).length ≤ arts.length := by
  unfold removeContentDuplicates
  split
  · exact le_refl _
  · have := foldl_cdStep_out_len θ arts ⟨[], [], []⟩
    simpa using this

theorem insertNew_len (acc : List String) (x : String) :
    (insertNew acc x).length ≤ acc.length + 1 := by
  unfold insertNew
  split
  all_goals simp

theorem foldl_insertNew_len (l : List String) :
    ∀ acc : List String, (l.foldl insertNew acc).length ≤ acc.length + l.length := by
  induction l with
  | nil => intro acc; simp
  | cons a as ih =>
    intro acc
    calc ((as.foldl insertNew (insertNew acc a))).length
        ≤ (insertNew acc a).length + as.length := ih _
      _ ≤ acc.length + 1 + as.length := by have := insertNew_len acc a; omega
      _ = acc.length + (a :: as).length := by simp; omega

theorem handleCrossSourceDuplicates_len (now : Int) (arts : List Article) :
    (handleCrossSourceDuplicates now arts).length ≤ arts.length := by
  unfold handleCrossSourceDuplicates
  split
  · exact le_refl _
  · have h := foldl_insertNew_len (arts.map keyOfArticle) []
    simp only [List.length_map] at h ⊢
    simpa using h

/-! ## Claim C4 -/

/-- **C4 (amended claim)**: deduplication never grows the list —
`len(dedupe(articles)) <= len(articles)` for every threshold, clock and input.
(The fixed-point half of C4 fails; see `C4_counterexample`.) -/
theorem C4_theorem (θ : Rat) (now : Int) (arts : List Article) :
    (removeDuplicates θ now arts).length ≤ arts.length := by
  unfold removeDuplicates
  calc (handleCrossSourceDuplicates now
          (removeContentDuplicates θ (removeTitleDuplicates (removeUrlDuplicates arts)))).length
      ≤ (removeContentDuplicates θ (removeTitleDuplicates (removeUrlDuplicates arts))).length :=
        handleCrossSourceDuplicates_len _ _
    _ ≤ (removeTitleDuplicates (removeUrlDuplicates arts)).length :=
        removeContentDuplicates_len _ _
    _ ≤ (removeUrlDuplicates arts).length := removeTitleDuplicates_len _
    _ ≤ arts.length := removeUrlDuplicates_len _

/-- **C4 (counterexample)**: at the default threshold `0.85`,
`dedupe(dedupe([ceA, ceB, ceC]))` has 1 article while `dedupe([ceA, ceB, ceC])`
has 2 — a second run changes the output, so `dedupe` is not a fixed point. -/
theorem C4_counterexample :
    removeDuplicates (mkRat 85 100) 0 (removeDuplicates (mkRat 85 100) 0 [ceA, ceB, ceC]) ≠
      removeDuplicates (mkRat 85 100) 0 [ceA, ceB, ceC] := by
  set_option maxRecDepth 100000 in decide

/-! ## Claim C5 -/

/-- Members of `remove_url_duplicates`' output come from the input. -/
theorem mem_foldl_urlStep (arts : List Article) :
    ∀ (st : List String × List Article) (x : Article),
      x ∈ (arts.foldl urlStep st).2 → x ∈ st.2 ∨ x ∈ arts := by
  induction arts with
  | nil => intro st x h; exact Or.inl h
  | cons a as ih =>
    intro st x h
    rcases ih (urlStep st a) x h with h1 | h1
    · unfold urlStep at h1
      dsimp only at h1
      split at h1
      · simp at h1
        rcases h1 with h1 | h1
        · exact Or.inl h1
        · exact Or.inr (by simp [h1])
      · split at h1
        · exact Or.inl h1
        · simp at h1
          rcases h1 with h1 | h1
          · exact Or.inl h1
          · exact Or.inr (by simp [h1])
    · exact Or.inr (List.mem_cons_of_mem _ h1)

theorem mem_removeUrlDuplicates {x : Article} {arts : List Article}
    (h : x ∈ removeUrlDuplicates arts) : x ∈ arts := by
  rcases mem_foldl_urlStep arts ([], []) x h with h1 | h1
  · simp at h1
  · exact h1

theorem mem_foldl_titleStep (arts : List Article) :
    ∀ (st : List String × List Article) (x : Article),
      x ∈ (arts.foldl titleStep st).2 → x ∈ st.2 ∨ x ∈ arts := by
  induction arts with
  | nil => intro st x h; exact Or.inl h
  | cons a as ih =>
    intro st x h
    rcases ih (titleStep st a) x h with h1 | h1
    · unfold titleStep at h1
      dsimp only at h1
      split at h1
      · simp at h1
        rcases h1 with h1 | h1
        · exact Or.inl h1
        · exact Or.inr (by simp [h1])
      · split at h1
        · exact Or.inl h1
        · simp at h1
          rcases h1 with h1 | h1
          · exact Or.inl h1
          · exact Or.inr (by simp [h1])
    · exact Or.inr (List.mem_cons_of_mem _ h1)

theorem mem_removeTitleDuplicates {x : Article} {arts : List Article}
    (h : x ∈ removeTitleDuplicates arts) : x ∈ arts := by
  rcases mem_foldl_titleStep arts ([], []) x h with h1 | h1
  · simp at h1
  · exact h1

theorem cdStep_inv {orig : List Article} {st : CDState} {a : Article}
    (hinv : CDInv orig st) (ha : a ∈ orig) : CDInv orig (cdStep θ st a) := by
  obtain ⟨h1, h2, h3⟩ := hinv
  unfold cdStep
  dsimp only
  split
  · refine ⟨h1, ?_, ?_⟩
    · intro t ht b hb
      rcases List.mem_append.mp ht with ht | ht
      · exact h2 t ht b hb
      · simp at ht
        subst ht; cases hb; exact ha
    · intro k hk
      rcases List.mem_append.mp hk with hk | hk
      · exact h3 k hk
      · simp at hk
  · split
    · exact ⟨h1, h2, h3⟩
    · split
      · split
        · refine ⟨?_, h2, ?_⟩
          · intro x hx
            rcases List.mem_or_eq_of_mem_set hx with hx | hx
            · exact h1 x hx
            · subst hx; exact ha
          · intro k hk
            have := h3 k hk
            simpa using this
        · exact ⟨h1, h2, h3⟩
      · refine ⟨?_, ?_, ?_⟩
        · intro x hx
          rcases List.mem_append.mp hx with hx | hx
          · exact h1 x hx
          · simp at hx
            subst hx; exact ha
        · intro t ht b hb
          rcases List.mem_append.mp ht with ht | ht
          · exact h2 t ht b hb
          · simp at ht
            subst ht; cases hb
        · intro k hk
          rcases List.mem_append.mp hk with hk | hk
          · have := h3 k hk; simp; omega
          · simp at hk
            subst hk; simp

theorem foldl_cdStep_inv {orig : List Article} (arts : List Article)
    (hsub : ∀ a ∈ arts, a ∈ orig) :
    ∀ st : CDState, CDInv orig st → CDInv orig (arts.foldl (cdStep θ) st) := by
  induction arts with
  | nil => intro st h; exact h
  | cons a as ih =>
    intro st h
    exact ih (fun x hx => hsub x (List.mem_cons_of_mem _ hx)) _
      (cdStep_inv h (hsub a (List.mem_cons_self _ _)))

theorem mem_removeContentDuplicates {x : Article} {θ : Rat} {arts : List Article}
    (h : x ∈ removeContentDuplicates θ arts) : x ∈ arts := by
  unfold removeContentDuplicates at h
  split at h
  · exact h
  · have hinv : CDInv arts (arts.foldl (cdStep θ) ⟨[], [], []⟩) :=
      foldl_cdStep_inv arts (fun a ha => ha) _ (by constructor <;> simp)
    obtain ⟨h1, h2, h3⟩ := hinv
    simp only [List.mem_map] at h
    obtain ⟨t, ht, hx⟩ := h
    cases t with
    | plain a => exact hx ▸ h2 _ ht a rfl
    | procRef k =>
      have hk := h3 k ht
      have : (arts.foldl (cdStep θ) ⟨[], [], []⟩).processed.getD k default ∈
          (arts.foldl (cdStep θ) ⟨[], [], []⟩).processed := by
        rw [List.getD_eq_getElem _ _ hk]
        exact List.getElem_mem _
      exact hx ▸ h1 _ this

/-- The recency bonus is the only clock reading of the quality score. -/
theorem qualityScore_clock_free {a : Article} (h : a.published_at = none) (t1 t2 : Int) :
    calculateArticleQualityScore t1 a = calculateArticleQualityScore t2 a := by
  unfold calculateArticleQualityScore
  rw [h]

theorem selectBestFromGroup_clock_free {g : List Article}
    (h : ∀ a ∈ g, a.published_at = none) (t1 t2 : Int) :
    selectBestFromGroup t1 g = selectBestFromGroup t2 g := by
  unfold selectBestFromGroup
  cases g with
  | nil => rfl
  | cons a t =>
    cases t with
    | nil => rfl
    | cons b t2' =>
      have : (a :: b :: t2').map (calculateArticleQualityScore t1) =
          (a :: b :: t2').map (calculateArticleQualityScore t2) :=
        List.map_congr_left (fun x hx => qualityScore_clock_free (h x hx) t1 t2)
      simp only [this]

theorem handleCrossSourceDuplicates_clock_free {arts : List Article}
    (h : ∀ a ∈ arts, a.published_at = none) (t1 t2 : Int) :
    handleCrossSourceDuplicates t1 arts = handleCrossSourceDuplicates t2 arts := by
  unfold handleCrossSourceDuplicates
  split
  · rfl
  · refine List.map_congr_left (fun k _ => ?_)
    exact selectBestFromGroup_clock_free
      (fun a ha => h a (List.mem_of_mem_filter ha)) t1 t2

/-- **C5 (amended claim)**: `dedupe` is a deterministic function of its input,
the similarity threshold **and the wall clock** (plus the ambient set iteration
order used for merged tags, modelled here as insertion order): on inputs
without a `published_at` timestamp the clock reading is irrelevant and two runs
at different times agree.  (Clock dependence on timestamped inputs is real; see
`C5_counterexample`.) -/
theorem C5_theorem (θ : Rat) (t1 t2 : Int) (arts : List Article)
    (h : ∀ a ∈ arts, a.published_at = none) :
    removeDuplicates θ t1 arts = removeDuplicates θ t2 arts := by
  unfold removeDuplicates
  exact handleCrossSourceDuplicates_clock_free
    (fun a ha => h a
      (mem_removeUrlDuplicates (mem_removeTitleDuplicates (mem_removeContentDuplicates ha))))
    t1 t2

/-- **C5 (witness)** for the amended theorem at a concrete timestamp-free pool. -/
theorem C5_witness :
    removeDuplicates (mkRat 85 100) 0 [{ title := some "t" }] =
      removeDuplicates (mkRat 85 100) 86400 [{ title := some "t" }] :=
  C5_theorem (mkRat 85 100) 0 86400 [{ title := some "t" }] (by decide)

/-- **C5 (counterexample)**: the same pool deduplicated at time 0 and ten days
later yields different results — `dedupe` reads the wall clock through the
quality score's recency bonus, refuting "no dependence on wall-clock time". -/
theorem C5_counterexample :
    removeDuplicates (mkRat 85 100) 0 [ceD, ceE] ≠
      removeDuplicates (mkRat 85 100) 864000 [ceD, ceE] := by
  set_option maxRecDepth 100000 in decide

/-- **C7 (counterexample)**: with an empty `content_excerpt` on one side,
`calculate_content_similarity` returns `0`, while the claimed formula
`0.6 * title_sim + 0.4 * content_sim` evaluates to `0.6`. -/
theorem C7_counterexample :
    calculateContentSimilarity ceF ceG = 0 ∧
    (6 / 10 : Rat) *
        calculateTextSimilarity (normalizeTitle (ceF.title.getD ""))
          (normalizeTitle (ceG.title.getD "")) +
      (4 / 10 : Rat) *
        calculateTextSimilarity (ceF.content_excerpt.getD "") (ceG.content_excerpt.getD "") =
      6 / 10 ∧
    (0 : Rat) ≠ 6 / 10 := by
  refine ⟨by decide, ?_, by norm_num⟩
  have h1 : calculateTextSimilarity (normalizeTitle (ceF.title.getD ""))
      (normalizeTitle (ceG.title.getD "")) = 1 := by decide
  have h2 : calculateTextSimilarity (ceF.content_excerpt.getD "")
      (ceG.content_excerpt.getD "") = 0 := by decide
  rw [h1, h2]
  norm_num

/-- **C7 (amended claim)**: the weighted formula holds whenever **both**
content excerpts are non-empty; with an empty excerpt on either side the code
returns `0.0` instead. -/
theorem C7_theorem (x y : Article)
    (h1 : x.content_excerpt.getD "" ≠ "") (h2 : y.content_excerpt.getD "" ≠ "") :
    calculateContentSimilarity x y =
      (6 / 10 : Rat) *
          calculateTextSimilarity (normalizeTitle (x.title.getD ""))
            (normalizeTitle (y.title.getD "")) +
        (4 / 10 : Rat) *
          calculateTextSimilarity (x.content_excerpt.getD "") (y.content_excerpt.getD "") := by
  unfold calculateContentSimilarity
  dsimp only
  rw [if_neg (by simp [h1, h2])]
  rw [qadd_eq_add, qmul_eq_mul, qmul_eq_mul]
  rw [show mkRat 6 10 = (6 / 10 : Rat) from by rw [Rat.mkRat_eq_div]; norm_num,
    show mkRat 4 10 = (4 / 10 : Rat) from by rw [Rat.mkRat_eq_div]; norm_num]
  ring

/-- **C7 (witness)**: the amended formula at a concrete pair with non-empty
excerpts. -/
theorem C7_witness :
    calculateContentSimilarity { ceF with content_excerpt := some "hi" } ceG =
      (6 / 10 : Rat) *
          calculateTextSimilarity
            (normalizeTitle (({ ceF with content_excerpt := some "hi" } : Article).title.getD ""))
            (normalizeTitle (ceG.title.getD "")) +
        (4 / 10 : Rat) *
          calculateTextSimilarity
            (({ ceF with content_excerpt := some "hi" } : Article).content_excerpt.getD "")
            (ceG.content_excerpt.getD "") :=
  C7_theorem { ceF with content_excerpt := some "hi" } ceG (by decide) (by decide)

/-! ## Claim C10 -/

theorem contentAdoptStep_title (b : Nat) (st : Article × Nat) (p : Nat × Article) :
    ((contentAdoptStep b st p).1).title = st.1.title := by
  unfold contentAdoptStep
  dsimp only
  repeat' split
  all_goals rfl

theorem foldl_contentAdopt_title (b : Nat) (l : List (Nat × Article)) :
    ∀ st : Article × Nat, ((l.foldl (contentAdoptStep b) st).1).title = st.1.title := by
  induction l with
  | nil => intro st; rfl
  | cons p ps ih =>
    intro st
    rw [List.foldl_cons, ih, contentAdoptStep_title]

/-- The cross-source merge never touches the winner's title. -/
theorem mergeArticleInformation_title (i : Nat) (g : List Article) :
    (mergeArticleInformation i g).title = (g.getD i default).title := by
  unfold mergeArticleInformation
  dsimp only
  rw [foldl_contentAdopt_title]

/-- The grouping key depends only on the title. -/
theorem keyOfArticle_congr {x y : Article} (h : x.title = y.title) :
    keyOfArticle x = keyOfArticle y := by
  unfold keyOfArticle
  rw [h]

theorem mem_enumFrom_fst_lt {α : Type} (l : List α) :
    ∀ (k : Nat) (p : Nat × α), p ∈ l.enumFrom k → p.1 < k + l.length := by
  induction l with
  | nil => intro k p h; cases h
  | cons a as ih =>
    intro k p h
    simp only [List.enumFrom] at h
    rcases List.mem_cons.mp h with h1 | h1
    · subst h1; simp
    · have := ih (k + 1) p h1
      simp only [List.length_cons]
      omega

theorem foldl_fmiStep_lt (n : Nat) :
    ∀ (ps : List (Nat × Rat)) (b : Nat × Rat), b.1 < n → (∀ p ∈ ps, p.1 + 1 < n) →
      ((ps.foldl fmiStep b).1) < n := by
  intro ps
  induction ps with
  | nil => intro b hb _; exact hb
  | cons p ps ih =>
    intro b hb hps
    rw [List.foldl_cons]
    refine ih _ ?_ (fun q hq => hps q (List.mem_cons_of_mem _ hq))
    unfold fmiStep
    split
    · exact hps p (List.mem_cons_self _ _)
    · exact hb

/-- `firstMaxIdx` indexes into the list it scans. -/
theorem firstMaxIdx_lt (l : List Rat) (h : l ≠ []) : firstMaxIdx l < l.length := by
  cases l with
  | nil => exact absurd rfl h
  | cons s ss =>
    unfold firstMaxIdx
    refine foldl_fmiStep_lt _ _ _ (by simp) ?_
    intro p hp
    have := mem_enumFrom_fst_lt ss 0 p hp
    simp only [List.length_cons]
    omega

/-- The representative of a single-key group carries that key. -/
theorem keyOf_selectBestFromGroup {now : Int} {g : List Article} {k : String}
    (hne : g ≠ []) (hall : ∀ a ∈ g, keyOfArticle a = k) :
    keyOfArticle (selectBestFromGroup now g) = k := by
  match g with
  | [] => exact absurd rfl hne
  | [a] => exact hall a (by simp)
  | a :: b :: t =>
    show keyOfArticle (mergeArticleInformation
      (firstMaxIdx ((a :: b :: t).map (calculateArticleQualityScore now))) (a :: b :: t)) = k
    set bi := firstMaxIdx ((a :: b :: t).map (calculateArticleQualityScore now)) with hbi
    have hlt : bi < (a :: b :: t).length := by
      have := firstMaxIdx_lt ((a :: b :: t).map (calculateArticleQualityScore now)) (by simp)
      simpa using this
    have hmem : (a :: b :: t).getD bi default ∈ (a :: b :: t) := by
      rw [List.getD_eq_getElem _ _ hlt]
      exact List.getElem_mem _
    rw [keyOfArticle_congr (mergeArticleInformation_title bi (a :: b :: t))]
    exact hall _ hmem

theorem mem_insertNew {x a : String} {acc : List String} (h : x ∈ insertNew acc a) :
    x ∈ acc ∨ x = a := by
  unfold insertNew at h
  split at h
  · exact Or.inl h
  · rcases List.mem_append.mp h with h | h
    · exact Or.inl h
    · simp at h
      exact Or.inr h

theorem mem_foldl_insertNew (l : List String) :
    ∀ (acc : List String) (x : String), x ∈ l.foldl insertNew acc → x ∈ acc ∨ x ∈ l := by
  induction l with
  | nil => intro acc x h; exact Or.inl h
  | cons a as ih =>
    intro acc x h
    rcases ih _ x h with h1 | h1
    · rcases mem_insertNew h1 with h2 | h2
      · exact Or.inl h2
      · exact Or.inr (by simp [h2])
    · exact Or.inr (List.mem_cons_of_mem _ h1)

theorem nodup_insertNew {acc : List String} {a : String} (h : acc.Nodup) :
    (insertNew acc a).Nodup := by
  unfold insertNew
  split
  · exact h
  · next hc =>
    rw [List.nodup_append]
    refine ⟨h, by simp, ?_⟩
    intro x hx hx2
    simp at hx2
    subst hx2
    exact hc (by simpa using hx)

theorem nodup_foldl_insertNew (l : List String) :
    ∀ acc : List String, acc.Nodup → (l.foldl insertNew acc).Nodup := by
  induction l with
  | nil => intro acc h; exact h
  | cons a as ih => intro acc h; exact ih _ (nodup_insertNew h)

/-- After the cross-source pass, at most one surviving article has any given
grouping key: the output carries one representative per distinct key. -/
theorem handleCross_key_count (now : Int) (arts : List Article) (key0 : String) :
    ((handleCrossSourceDuplicates now arts).countP (fun a => keyOfArticle a = key0)) ≤ 1 := by
  unfold handleCrossSourceDuplicates
  split
  · next hle =>
    calc (arts.countP _) ≤ arts.length := List.countP_le_length _
      _ ≤ 1 := by omega
  · next hgt =>
    rw [List.countP_map]
    have hcong : ∀ k ∈ (arts.map keyOfArticle).foldl insertNew [],
        ((fun a => decide (keyOfArticle a = key0)) ∘
          (fun k => selectBestFromGroup now (arts.filter (fun a => keyOfArticle a = k)))) k =
          decide (k = key0) := by
      intro k hk
      have hkarts : k ∈ arts.map keyOfArticle := by
        rcases mem_foldl_insertNew _ [] k hk with h | h
        · cases h
        · exact h
      obtain ⟨a, ha, hka⟩ := List.mem_map.mp hkarts
      have hne : arts.filter (fun a => keyOfArticle a = k) ≠ [] := by
        refine List.ne_nil_of_mem (a := a) ?_
        rw [List.mem_filter]
        exact ⟨ha, by simp [hka]⟩
      have hall : ∀ x ∈ arts.filter (fun a => keyOfArticle a = k), keyOfArticle x = k := by
        intro x hx
        have := (List.mem_filter.mp hx).2
        simpa using this
      simp only [Function.comp]
      rw [keyOf_selectBestFromGroup hne hall]
    rw [List.countP_congr (fun x hx => by rw [hcong x hx])]
    have hnd : ((arts.map keyOfArticle).foldl insertNew []).Nodup :=
      nodup_foldl_insertNew _ [] (by simp)
    have : ((arts.map keyOfArticle).foldl insertNew []).countP (fun k => decide (k = key0)) =
        ((arts.map keyOfArticle).foldl insertNew []).count key0 := by
      rw [List.count]
      refine List.countP_congr ?_
      intro k _
      constructor
      · intro h2
        have h3 : k = key0 := by simpa using h2
        simp [h3]
      · intro h2
        have h3 : k = key0 := by simpa using h2
        simp [h3]
    rw [this]
    exact List.nodup_iff_count_le_one.mp hnd key0

/-- **C10**: `dedupe`'s output contains at most one article whose title yields
the empty grouping key (title empty or made only of stop-words, digits and
short tokens): the cross-source pass buckets all such articles under the empty
`title_key` and collapses each bucket to a single representative. -/
theorem C10_theorem (θ : Rat) (now : Int) (arts : List Article) :
    ((removeDuplicates θ now arts).countP (fun a => keyOfArticle a = "")) ≤ 1 := by
  unfold removeDuplicates
  exact handleCross_key_count now _ ""

theorem mapME_ok_of {α β : Type} {f : α → Except Unit β} {l : List α}
    (h : ∀ a ∈ l, ∃ b, f a = .ok b) : ∃ ys, mapME f l = .ok ys := by
  induction l with
  | nil => exact ⟨[], rfl⟩
  | cons a as ih =>
    obtain ⟨b, hb⟩ := h a (List.mem_cons_self _ _)
    obtain ⟨ys, hys⟩ := ih (fun x hx => h x (List.mem_cons_of_mem _ hx))
    exact ⟨b :: ys, by simp [mapME, hb, hys, Except.bind]⟩

theorem filterME_ok_of {α : Type} {p : α → Except Unit Bool} {l : List α}
    (h : ∀ a ∈ l, ∃ b, p a = .ok b) : ∃ ys, filterME p l = .ok ys := by
  induction l with
  | nil => exact ⟨[], rfl⟩
  | cons a as ih =>
    obtain ⟨b, hb⟩ := h a (List.mem_cons_self _ _)
    obtain ⟨ys, hys⟩ := ih (fun x hx => h x (List.mem_cons_of_mem _ hx))
    exact ⟨if b then a :: ys else ys, by simp [filterME, hb, hys, Except.bind]⟩

theorem filterME_ok_sub {α : Type} {p : α → Except Unit Bool} {l : List α} {r : List α}
    (h : filterME p l = .ok r) : ∀ x ∈ r, x ∈ l := by
  induction l generalizing r with
  | nil =>
    cases h
    intro x hx
    cases hx
  | cons a as ih =>
    intro x hx
    unfold filterME at h
    cases hpa : p a with
    | error e => rw [hpa] at h; cases h
    | ok b =>
      rw [hpa] at h
      cases hrest : filterME p as with
      | error e => simp [Except.bind, hrest] at h
      | ok ys =>
        simp [Except.bind, hrest, pure, Except.pure] at h
        subst h
        by_cases hb : b = true
        · subst hb
          simp at hx
          rcases hx with hx | hx
          · simp [hx]
          · exact List.mem_cons_of_mem _ (ih hrest x hx)
        · simp [hb] at hx
          exact List.mem_cons_of_mem _ (ih hrest x hx)

theorem prepareArticleSummary_ok {a : Article} (h : FieldsPresent a) :
    ∃ s, prepareArticleSummary a = .ok s := by
  obtain ⟨h1, h2, h3, h4⟩ := h
  obtain ⟨t, ht⟩ := Option.isSome_iff_exists.mp h1
  obtain ⟨sn, hsn⟩ := Option.isSome_iff_exists.mp h2
  obtain ⟨st, hst⟩ := Option.isSome_iff_exists.mp h3
  obtain ⟨u, hu⟩ := Option.isSome_iff_exists.mp h4
  exact ⟨_, by unfold prepareArticleSummary; rw [ht, hsn, hst, hu]; rfl⟩

theorem prepareDetailedSummary_ok {a : Article} (h : FieldsPresent a) :
    ∃ s, prepareDetailedSummary a = .ok s := by
  obtain ⟨h1, h2, h3, h4⟩ := h
  obtain ⟨t, ht⟩ := Option.isSome_iff_exists.mp h1
  obtain ⟨sn, hsn⟩ := Option.isSome_iff_exists.mp h2
  obtain ⟨st, hst⟩ := Option.isSome_iff_exists.mp h3
  obtain ⟨u, hu⟩ := Option.isSome_iff_exists.mp h4
  exact ⟨_, by unfold prepareDetailedSummary; rw [ht, hsn, hst, hu]; rfl⟩

theorem stage1Select_ok {oracle : Nat → Option (List Int)} {cands : List Article}
    (h : ∀ a ∈ cands, FieldsPresent a) :
    stage1Select oracle cands = .ok (stage1Core oracle cands) := by
  obtain ⟨ys, hys⟩ := mapME_ok_of (fun a ha => prepareArticleSummary_ok (h a ha))
  simp [stage1Select, hys, Except.bind, pure, Except.pure]

theorem stage2Select_ok (oracle : Option Stage2Reply) {cands : List Article}
    (h : ∀ a ∈ cands, FieldsPresent a) :
    ∃ r, stage2Select oracle cands = .ok r := by
  obtain ⟨ys, hys⟩ := mapME_ok_of (fun a ha => prepareDetailedSummary_ok (h a ha))
  cases oracle with
  | none => exact ⟨stage2Fallback cands, by unfold stage2Select; rw [hys]; rfl⟩
  | some reply =>
    cases htry : stage2TryBody reply cands with
    | error e =>
      exact ⟨stage2Fallback cands, by unfold stage2Select; rw [hys]; simp [htry]⟩
    | ok r =>
      exact ⟨r, by unfold stage2Select; rw [hys]; simp [htry]⟩

theorem mem_stage1Core {oracle : Nat → Option (List Int)} {cands : List Article} :
    ∀ x ∈ stage1Core oracle cands, x ∈ cands := by
  intro x hx
  unfold stage1Core at hx
  dsimp only at hx
  obtain ⟨i, _, hget⟩ := List.mem_filterMap.mp hx
  exact List.get?_mem hget

theorem mapME_ok_mem {α β : Type} {f : α → Except Unit β} {l : List α} {r : List β}
    (h : mapME f l = .ok r) : ∀ b ∈ r, ∃ a ∈ l, f a = .ok b := by
  induction l generalizing r with
  | nil =>
    cases h
    intro b hb
    cases hb
  | cons a as ih =>
    intro b hb
    unfold mapME at h
    cases hfa : f a with
    | error e => rw [hfa] at h; simp at h
    | ok v =>
      rw [hfa] at h
      cases hrest : mapME f as with
      | error e => simp [hrest] at h
      | ok ys =>
        simp [hrest] at h
        subst h
        simp at hb
        rcases hb with hb | hb
        · exact ⟨a, List.mem_cons_self _ _, by rw [hfa, hb]⟩
        · obtain ⟨x, hx, hfx⟩ := ih hrest b hb
          exact ⟨x, List.mem_cons_of_mem _ hx, hfx⟩

theorem mem_applyDiversityFiltering {now : Int} {recently : List String}
    {arts out : List Article} (h : applyDiversityFiltering now recently arts = .ok out) :
    ∀ x ∈ out, x ∈ arts := by
  unfold applyDiversityFiltering at h
  rw [bind_ok_iff] at h
  obtain ⟨fresh, hfresh, h⟩ := h
  rw [bind_ok_iff] at h
  obtain ⟨pairs, hpairs, h⟩ := h
  simp only [except_pure_eq, Except.ok.injEq] at h
  subst h
  intro x hx
  obtain ⟨s, _, hmem⟩ := List.mem_flatMap.mp hx
  have hx2 := List.mem_of_mem_take hmem
  have hx3 := (List.mergeSort_perm _ _).mem_iff.mp hx2
  obtain ⟨q, hq, hqx⟩ := List.mem_map.mp hx3
  have hq2 : q ∈ pairs := List.mem_of_mem_filter hq
  obtain ⟨a, ha, hfa⟩ := mapME_ok_mem hpairs q hq2
  have hq3 : q.2 = a := by
    cases hsn : a.source_name with
    | none => rw [hsn] at hfa; simp [bracketGet] at hfa
    | some sn =>
      rw [hsn] at hfa
      simp [bracketGet] at hfa
      rw [← hfa]
  exact filterME_ok_sub hfresh x (hqx ▸ (hq3 ▸ ha))

theorem applyDiversityFiltering_ok (now : Int) (recently : List String) {arts : List Article}
    (h : ∀ a ∈ arts, FieldsPresent a) :
    ∃ out, applyDiversityFiltering now recently arts = .ok out := by
  obtain ⟨fresh, hfresh⟩ : ∃ fresh, filterME (fun a => do
      let u ← bracketGet a.url
      pure (!recently.contains u)) arts = .ok fresh := by
    refine filterME_ok_of (fun a ha => ?_)
    obtain ⟨u, hu⟩ := Option.isSome_iff_exists.mp (h a ha).2.2.2
    exact ⟨!recently.contains u, by rw [hu]; rfl⟩
  obtain ⟨pairs, hpairs⟩ : ∃ pairs, mapME (fun a => do
      let s ← bracketGet a.source_name
      pure (s, a)) fresh = .ok pairs := by
    refine mapME_ok_of (fun a ha => ?_)
    obtain ⟨sn, hsn⟩ := Option.isSome_iff_exists.mp
      (h a (filterME_ok_sub hfresh a ha)).2.1
    exact ⟨(sn, a), by rw [hsn]; rfl⟩
  exact ⟨_, by
    unfold applyDiversityFiltering
    rw [hfresh]
    simp only [except_bind_ok]
    rw [hpairs]
    rfl⟩

/-! ## Claim C2 -/

/-- **C2 (amended claim)**: the orchestrated run `create_daily_digest` returns
without an escaping exception — for any oracle behaviour, clock and recency
set — provided every article carries `title`, `source_type`, **`url` and
`source_name`** (the latter two are accessed with raising `['…']` lookups; all
remaining fields default safely).  Articles missing `url` or `source_name` do
raise; see `C2_counterexample`. -/
theorem C2_theorem (now : Int) (recently : List String)
    (oracle1 : Nat → Option (List Int)) (oracle2 : Option Stage2Reply)
    (arts : List Article) (h : ∀ a ∈ arts, FieldsPresent a) :
    ∃ r, createDailyDigest now recently oracle1 oracle2 arts = .ok r := by
  by_cases hempty : arts.length = 0
  · exact ⟨_, by unfold createDailyDigest; rw [if_pos hempty]; rfl⟩
  · obtain ⟨diverse, hdiv⟩ := applyDiversityFiltering_ok now recently h
    have hdivPres : ∀ a ∈ diverse, FieldsPresent a :=
      fun a ha => h a (mem_applyDiversityFiltering hdiv a ha)
    obtain ⟨s1, hs1, hs1p⟩ : ∃ s1, stage1Filtering now recently oracle1 arts = .ok s1 ∧
        ∀ a ∈ s1, FieldsPresent a := by
      unfold stage1Filtering
      rw [hdiv]
      simp only [except_bind_ok]
      by_cases hlen : diverse.length = 0
      · rw [if_pos hlen]
        exact ⟨[], rfl, fun a ha => absurd ha (List.not_mem_nil a)⟩
      · rw [if_neg hlen, stage1Select_ok hdivPres]
        exact ⟨_, rfl, fun a ha => hdivPres a (mem_stage1Core a ha)⟩
    obtain ⟨r2, hr2⟩ := stage2Select_ok oracle2 hs1p
    exact ⟨_, by
      unfold createDailyDigest
      rw [if_neg hempty, hs1]
      simp only [except_bind_ok]
      rw [hr2]
      rfl⟩

/-- **C2 (counterexample)**: on a pool whose single article has non-empty
`title` and `source_type` but no `url`, `_apply_diversity_filtering`'s
`a['url']` raises and the exception escapes `create_daily_digest`, refuting
"missing fields are recovered locally with defaults and never propagated". -/
theorem C2_counterexample :
    createDailyDigest 0 [] (fun _ => none) none [ceH] = .error () := by
  rfl

/-- **C2 (witness)**: a concrete full-field pool, a failing shortlist oracle
and an absent final oracle still produce a result. -/
theorem C2_witness :
    ∃ r, createDailyDigest 0 []
      (fun _ => none) none
      [{ title := some "t", source_name := some "s", source_type := some "rss",
         url := some "http://x.com/a" }] = .ok r :=
  C2_theorem 0 [] (fun _ => none) none _ (by decide)

/-! ## Claim C1 -/

theorem batchStarts_mem_lt {n bs : Nat} (h : bs ∈ batchStarts n) : bs < n := by
  unfold batchStarts at h
  obtain ⟨i, hi, hbs⟩ := List.mem_map.mp h
  have h2 := List.mem_range.mp hi
  omega

theorem stage1SelectIndices_none_valid {n : Nat} {i : Int}
    (h : i ∈ stage1SelectIndices (fun _ => none) n) : 0 ≤ i ∧ i < (n : Int) := by
  unfold stage1SelectIndices at h
  obtain ⟨bs, hbs, hmem⟩ := List.mem_flatMap.mp h
  obtain ⟨k, hk, hik⟩ := List.mem_map.mp hmem
  have hk2 := List.mem_range.mp hk
  have hbs2 := batchStarts_mem_lt hbs
  subst hik
  refine ⟨Int.ofNat_nonneg _, ?_⟩
  exact_mod_cast (by omega : bs + k < n)

theorem filterMap_get_range (l : List Article) :
    ∀ (m bs : Nat), bs + m ≤ l.length →
      ((List.range m).map (fun k => ((bs + k : Nat) : Int))).filterMap
        (fun i => l.get? i.toNat) = (l.drop bs).take m := by
  intro m
  induction m with
  | zero => intro bs _; simp
  | succ m ih =>
    intro bs hbs
    have hlt : bs < l.length := by omega
    rw [List.range_succ_eq_map]
    simp only [List.map_cons, List.map_map]
    rw [List.filterMap_cons_some (f := fun i : Int => l.get? i.toNat)
      (show (fun i : Int => l.get? i.toNat) (((bs + 0 : Nat) : Int)) = some l[bs] from by
        simp [List.get?_eq_getElem?, List.getElem?_eq_getElem hlt])]
    have hcomp : (List.range m).map ((fun k => (((bs + k : Nat)) : Int)) ∘ Nat.succ) =
        (List.range m).map (fun k => ((((bs + 1) + k : Nat)) : Int)) := by
      refine List.map_congr_left (fun k _ => ?_)
      simp only [Function.comp]
      congr 1
      omega
    rw [hcomp, ih (bs + 1) (by omega)]
    rw [List.drop_eq_getElem_cons hlt, List.take_succ_cons]

theorem filterMap_take_comm {α : Type} {f : Int → Option α} {xs : List Int}
    (h : ∀ x ∈ xs, (f x).isSome) :
    ∀ n : Nat, (xs.take n).filterMap f = (xs.filterMap f).take n := by
  induction xs with
  | nil => intro n; simp
  | cons x xs ih =>
    intro n
    cases n with
    | zero => simp
    | succ n =>
      obtain ⟨b, hb⟩ := Option.isSome_iff_exists.mp (h x (List.mem_cons_self _ _))
      rw [List.take_succ_cons, List.filterMap_cons_some hb,
        List.filterMap_cons_some hb, List.take_succ_cons,
        ih (fun y hy => h y (List.mem_cons_of_mem _ hy)) n]

theorem batchStarts_zero : batchStarts 0 = [] := rfl

theorem batchStarts_small {n : Nat} (h1 : 0 < n) (h2 : n ≤ 50) : batchStarts n = [0] := by
  unfold batchStarts
  rw [show (n + 49) / 50 = 1 from by omega]
  rfl

theorem batchStarts_two {n : Nat} (h1 : 50 < n) (h2 : n ≤ 100) : batchStarts n = [0, 50] := by
  unfold batchStarts
  rw [show (n + 49) / 50 = 2 from by omega]
  rfl

theorem batchStarts_big {n : Nat} (h1 : 100 < n) :
    ∃ rest, batchStarts n = 0 :: 50 :: rest := by
  unfold batchStarts
  obtain ⟨m, hm⟩ : ∃ m, (n + 49) / 50 = m + 2 := ⟨(n + 49) / 50 - 2, by omega⟩
  rw [hm, List.range_succ_eq_map, List.range_succ_eq_map]
  exact ⟨(List.range m).map ((fun x => x * 50) ∘ Nat.succ ∘ Nat.succ), by simp⟩

/-- The per-batch fallback reads off the first 10 of its 50-batch. -/
theorem batch_read (l : List Article) {bs : Nat} (hbs : bs < l.length) :
    ((List.range (min 10 (min 50 (l.length - bs)))).map
        (fun k => ((bs + k : Nat) : Int))).filterMap (fun i => l.get? i.toNat) =
      (l.drop bs).take 10 := by
  rw [filterMap_get_range l _ bs (by omega)]
  rw [List.take_eq_take]
  simp only [List.length_drop]
  omega

theorem stage1_fallback_filterMap (l : List Article) :
    (stage1SelectIndices (fun _ => none) l.length).filterMap (fun i => l.get? i.toNat) =
      (batchStarts l.length).flatMap (fun bs => (l.drop bs).take 10) := by
  unfold stage1SelectIndices
  rw [List.filterMap_flatMap]
  exact List.flatMap_congr (fun bs hbs => batch_read l (batchStarts_mem_lt hbs))

/-- The complete fallback selection of stage 1: first 10 of the first batch,
first 10 of the second, truncated to 20 — later batches never survive the
truncation. -/
theorem stage1Core_none (l : List Article) :
    stage1Core (fun _ => none) l = (l.take 10 ++ (l.drop 50).take 10).take 20 := by
  unfold stage1Core
  dsimp only
  rw [List.filter_eq_self.mpr (fun i hi => by
    have h := stage1SelectIndices_none_valid hi
    simp only [Bool.and_eq_true, decide_eq_true_eq]
    exact h)]
  rw [filterMap_take_comm (fun x hx => by
    have h := stage1SelectIndices_none_valid hx
    have hlt : x.toNat < l.length := by omega
    rw [Option.isSome_iff_exists]
    exact ⟨l[x.toNat], by simp [List.get?_eq_getElem?, List.getElem?_eq_getElem hlt]⟩)]
  rw [stage1_fallback_filterMap]
  rcases Nat.lt_or_ge 100 l.length with hbig | hle
  · obtain ⟨rest, hrest⟩ := batchStarts_big hbig
    rw [hrest, List.flatMap_cons, List.flatMap_cons,
      show l.drop 0 = l from rfl, ← List.append_assoc,
      List.take_append_eq_append_take]
    have hlen : (l.take 10 ++ (l.drop 50).take 10).length = 20 := by
      simp only [List.length_append, List.length_take, List.length_drop]
      omega
    rw [hlen]
    simp
  · rcases Nat.lt_or_ge 50 l.length with hmid | hsmall
    · rw [batchStarts_two hmid hle]
      simp [List.flatMap_cons]
    · rcases Nat.eq_zero_or_pos l.length with hz | hpos
      · have hnil : l = [] := List.length_eq_zero.mp hz
        subst hnil
        rfl
      · rw [batchStarts_small hpos hsmall]
        have hdrop : l.drop 50 = [] := List.drop_eq_nil_of_le (by omega)
        simp [List.flatMap_cons, hdrop]

/-- **C1 (amended claim)**: with an always-raising oracle, the shortlist stage
returns the first `min(10, batch)` candidates **of each 50-batch** (the
per-batch fallback count is 10, not the stage target 20), concatenated in
order and truncated to 20 — equivalently the first 10 of batch one followed by
the first 10 of batch two; the final stage returns exactly the first 5
candidates in input order. -/
theorem C1_theorem (cands : List Article) (h : ∀ a ∈ cands, FieldsPresent a) :
    stage1Select (fun _ => none) cands =
        .ok ((cands.take 10 ++ (cands.drop 50).take 10).take 20) ∧
      (stage2Select none cands).map (fun r => r.selected) = .ok (cands.take 5) := by
  constructor
  · rw [stage1Select_ok h, stage1Core_none]
  · obtain ⟨ys, hys⟩ := mapME_ok_of (fun a ha => prepareDetailedSummary_ok (h a ha))
    unfold stage2Select
    rw [hys]
    rfl

/-- **C1 (counterexample)**: on 20 candidates with an always-raising oracle the
shortlist stage returns only the **first 10** candidates, not the first
`target_count = 20` that the claim asserts. -/
theorem C1_counterexample :
    stage1Select (fun _ => none) ce20 = .ok (ce20.take 10) ∧
      ce20.take 10 ≠ ce20.take 20 := by
  constructor
  · rfl
  · decide

/-- **C1 (witness)** for the amended theorem on the concrete 20-candidate pool. -/
theorem C1_witness :
    stage1Select (fun _ => none) ce20 =
        .ok ((ce20.take 10 ++ (ce20.drop 50).take 10).take 20) ∧
      (stage2Select none ce20).map (fun r => r.selected) = .ok (ce20.take 5) :=
  C1_theorem ce20 (by decide)

/-! ## Claim C6 -/

theorem mapMO_none {α β : Type} {f : α → Option β} {l : List α}
    (h : ∃ x ∈ l, f x = none) : mapMO f l = none := by
  induction l with
  | nil =>
    obtain ⟨x, hx, _⟩ := h
    cases hx
  | cons a as ih =>
    obtain ⟨x, hx, hfx⟩ := h
    unfold mapMO
    rcases List.mem_cons.mp hx with h1 | h1
    · subst h1
      rw [hfx]
      rfl
    · cases hfa : f a with
      | none => rfl
      | some b =>
        rw [ih ⟨x, h1, hfx⟩]
        rfl

/-- With at most one batch, the stage-1 index handling is exactly: filter the
oracle's indices to the in-range ones, truncate to 20, read them off. -/
theorem stage1Core_single (idxs : List Int) (cands : List Article)
    (hlen : cands.length ≤ 50) :
    stage1Core (fun _ => some idxs) cands =
      ((idxs.filter (fun i => decide (0 ≤ i) &&
          decide (i < (cands.length : Int)))).take 20).filterMap
        (fun i => cands.get? i.toNat) := by
  unfold stage1Core
  dsimp only
  rcases Nat.eq_zero_or_pos cands.length with hz | hpos
  · have hnil : cands = [] := List.length_eq_zero.mp hz
    subst hnil
    rw [show stage1SelectIndices (fun _ => some idxs) ([] : List Article).length = []
      from rfl]
    rw [show (idxs.filter (fun i => decide (0 ≤ i) &&
        decide (i < (([] : List Article).length : Int)))) = [] from
      List.filter_eq_nil_iff.mpr (fun i _ => by
        simp only [List.length_nil, Nat.cast_zero, Bool.and_eq_true, decide_eq_true_eq]
        omega)]
    rfl
  · unfold stage1SelectIndices
    rw [batchStarts_small hpos hlen]
    rw [List.flatMap_cons]
    simp

/-- **C6 (amended claim)**: only the shortlist stage discards out-of-range
indices defensively while keeping the in-range part — the final stage instead
catches the `IndexError` raised by `filtered_articles[i]` and throws the whole
reply away, falling back to the first 5 candidates (and an index in
`[-len, 0)` is not out of range for Python: it silently selects from the end). -/
theorem C6_theorem :
    (∀ (idxs : List Int) (cands : List Article), (∀ a ∈ cands, FieldsPresent a) →
        cands.length ≤ 50 →
        stage1Select (fun _ => some idxs) cands =
          .ok (((idxs.filter (fun i => decide (0 ≤ i) &&
              decide (i < (cands.length : Int)))).take 20).filterMap
            (fun i => cands.get? i.toNat))) ∧
    (∀ (reply : Stage2Reply) (cands : List Article), (∀ a ∈ cands, FieldsPresent a) →
        (∃ i ∈ reply.selected_indices, pyIndex cands i = none) →
        (stage2Select (some reply) cands).map (fun r => r.selected) =
          .ok (cands.take 5)) := by
  constructor
  · intro idxs cands hp hlen
    rw [stage1Select_ok hp, stage1Core_single idxs cands hlen]
  · intro reply cands hp hbad
    obtain ⟨ys, hys⟩ := mapME_ok_of (fun a ha => prepareDetailedSummary_ok (hp a ha))
    have htry : stage2TryBody reply cands = .error () := by
      unfold stage2TryBody
      rw [mapMO_none hbad]
      rfl
    unfold stage2Select
    rw [hys]
    simp only [except_bind_ok]
    rw [htry]
    rfl

/-- **C6 (counterexample)**: the final stage, given the mixed reply `[0, 5]` on
3 candidates, does **not** keep the valid index 0 and drop 5 — the whole reply
is discarded and all 3 fallback candidates come back. -/
theorem C6_counterexample :
    (stage2Select (some { selected_indices := [0, 5] })
        [ceJ 0, ceJ 1, ceJ 2]).map (fun r => r.selected) = .ok [ceJ 0, ceJ 1, ceJ 2] ∧
      [ceJ 0, ceJ 1, ceJ 2] ≠ [ceJ 0] := by
  constructor
  · rfl
  · decide

/-- **C6 (witness)** for the amended theorem at concrete mixed replies. -/
theorem C6_witness :
    stage1Select (fun _ => some [0, 25, -1, 3]) [ceJ 0, ceJ 1, ceJ 2, ceJ 3, ceJ 4] =
        .ok (((([0, 25, -1, 3] : List Int).filter (fun i => decide (0 ≤ i) &&
            decide (i < (([ceJ 0, ceJ 1, ceJ 2, ceJ 3, ceJ 4] : List Article).length : Int)))).take
              20).filterMap
          (fun i => ([ceJ 0, ceJ 1, ceJ 2, ceJ 3, ceJ 4] : List Article).get? i.toNat)) ∧
      (stage2Select (some { selected_indices := [1, -7] })
          [ceJ 0, ceJ 1]).map (fun r => r.selected) =
        .ok (([ceJ 0, ceJ 1] : List Article).take 5) :=
  ⟨C6_theorem.1 [0, 25, -1, 3] _ (by decide) (by decide),
   C6_theorem.2 { selected_indices := [1, -7] } _ (by decide)
     ⟨-7, by decide, by decide⟩⟩

/-! ## Claim C8 -/

theorem mapME_cons_ok {α β : Type} {f : α → Except Unit β} {a : α} {as : List α}
    {b : β} {rest : List β} (h1 : f a = .ok b) (h2 : mapME f as = .ok rest) :
    mapME f (a :: as) = .ok (b :: rest) := by
  unfold mapME
  rw [h1, h2]
  rfl

theorem filterME_cons_ok {α : Type} {p : α → Except Unit Bool} {a : α} {as : List α}
    {b : Bool} {rest : List α} (h1 : p a = .ok b) (h2 : filterME p as = .ok rest) :
    filterME p (a :: as) = .ok (if b then a :: rest else rest) := by
  unfold filterME
  rw [h1, h2]
  rfl

theorem filterME_url_eq {recently : List String} {arts : List Article}
    (h : ∀ a ∈ arts, a.url.isSome) :
    filterME (fun a => do
      let u ← bracketGet a.url
      pure (!recently.contains u)) arts = .ok (freshArticles recently arts) := by
  induction arts with
  | nil => rfl
  | cons a as ih =>
    obtain ⟨u, hu⟩ := Option.isSome_iff_exists.mp (h a (List.mem_cons_self _ _))
    have h1 : (do
        let v ← bracketGet a.url
        pure (!recently.contains v) : Except Unit Bool) = .ok (!recently.contains u) := by
      rw [hu]
      rfl
    rw [filterME_cons_ok (p := fun (a : Article) => do
        let u ← bracketGet a.url
        pure (!recently.contains u)) h1
      (ih (fun x hx => h x (List.mem_cons_of_mem _ hx)))]
    unfold freshArticles
    rw [List.filter_cons]
    simp [hu]

theorem mapME_pair_eq {fresh : List Article}
    (h : ∀ a ∈ fresh, a.source_name.isSome) :
    mapME (fun a => do
      let s ← bracketGet a.source_name
      pure (s, a)) fresh = .ok (fresh.map (fun a => (a.source_name.getD "", a))) := by
  induction fresh with
  | nil => rfl
  | cons a as ih =>
    obtain ⟨sn, hsn⟩ := Option.isSome_iff_exists.mp (h a (List.mem_cons_self _ _))
    have h1 : (do
        let s ← bracketGet a.source_name
        pure (s, a) : Except Unit (String × Article)) = .ok (sn, a) := by
      rw [hsn]
      rfl
    rw [mapME_cons_ok (f := fun (a : Article) => do
        let s ← bracketGet a.source_name
        pure (s, a)) h1
      (ih (fun x hx => h x (List.mem_cons_of_mem _ hx)))]
    rw [List.map_cons]
    rw [hsn]
    rfl

theorem map_snd_filter_fst {l : List Article} {s : String} :
    ((l.map (fun a => (a.source_name.getD "", a))).filter
        (fun p => p.1 = s)).map (fun p => p.2) =
      l.filter (fun a => a.source_name.getD "" = s) := by
  induction l with
  | nil => rfl
  | cons a as ih =>
    rw [List.map_cons, List.filter_cons, List.filter_cons]
    by_cases hs : a.source_name.getD "" = s
    · rw [if_pos (by simpa using hs), if_pos (by simpa using hs), List.map_cons, ih]
    · rw [if_neg (by simpa using hs), if_neg (by simpa using hs), ih]

/-- Under field presence, the raising diversity filter computes its total
reading. -/
theorem applyDiversityFiltering_eq_core (now : Int) (recently : List String)
    {arts : List Article} (h : ∀ a ∈ arts, FieldsPresent a) :
    applyDiversityFiltering now recently arts = .ok (diversityCore now recently arts) := by
  unfold applyDiversityFiltering
  rw [filterME_url_eq (fun a ha => (h a ha).2.2.2)]
  simp only [except_bind_ok]
  have hfp : ∀ a ∈ freshArticles recently arts, a.source_name.isSome := by
    intro a ha
    unfold freshArticles at ha
    exact (h a (List.mem_of_mem_filter ha)).2.1
  rw [mapME_pair_eq hfp]
  simp only [except_bind_ok, except_pure_eq, Except.ok.injEq]
  unfold diversityCore
  have hfst : ((freshArticles recently arts).map
      (fun a => (a.source_name.getD "", a))).map (fun x => x.1) =
      (freshArticles recently arts).map (fun a => a.source_name.getD "") := by
    rw [List.map_map]
    rfl
  rw [hfst]
  refine List.flatMap_congr (fun s _ => ?_)
  rw [map_snd_filter_fst]
  rfl

theorem mem_insertNew_self (acc : List String) (a : String) : a ∈ insertNew acc a := by
  unfold insertNew
  split
  · next hc => exact List.mem_of_elem_eq_true hc
  · simp

theorem mem_insertNew_of_mem {acc : List String} {x : String} (a : String)
    (h : x ∈ acc) : x ∈ insertNew acc a := by
  unfold insertNew
  split
  · exact h
  · exact List.mem_append_left _ h

theorem mem_foldl_insertNew_mono (l : List String) :
    ∀ (acc : List String) (x : String), x ∈ acc → x ∈ l.foldl insertNew acc := by
  induction l with
  | nil => intro acc x h; exact h
  | cons a as ih => intro acc x h; exact ih _ x (mem_insertNew_of_mem a h)

theorem mem_foldl_insertNew_of_mem {l : List String} {x : String} (h : x ∈ l) :
    ∀ acc : List String, x ∈ l.foldl insertNew acc := by
  induction l with
  | nil => cases h
  | cons a as ih =>
    intro acc
    rcases List.mem_cons.mp h with h1 | h1
    · subst h1
      exact mem_foldl_insertNew_mono as _ x (mem_insertNew_self acc x)
    · exact ih h1 _

/-- A fresh article's source name is among the dict keys. -/
theorem source_mem_sourcesOf {arts : List Article} {a : Article} (h : a ∈ arts) :
    a.source_name.getD "" ∈ sourcesOf arts :=
  mem_foldl_insertNew_of_mem (List.mem_map_of_mem _ h) []

theorem flatMap_single_key {α : Type} {keys : List String} {s : String} {C : List α}
    (hnd : keys.Nodup) (hs : s ∈ keys) :
    (keys.flatMap (fun k => if k = s then C else [])) = C := by
  induction keys with
  | nil => cases hs
  | cons k ks ih =>
    rw [List.flatMap_cons]
    rcases List.mem_cons.mp hs with h1 | h1
    · rw [if_pos h1.symm]
      have hnotin : s ∉ ks := by
        rw [h1]
        exact (List.nodup_cons.mp hnd).1
      have hz : ks.flatMap (fun j => if j = s then C else []) = [] := by
        rw [List.flatMap_eq_nil_iff]
        intro j hj
        rw [if_neg (fun hjs : j = s => hnotin (hjs ▸ hj))]
      rw [hz, List.append_nil]
    · have hk : k ≠ s := fun hk2 => (List.nodup_cons.mp hnd).1 (hk2 ▸ h1)
      rw [if_neg hk, List.nil_append, ih (List.nodup_cons.mp hnd).2 h1]

/-- **C8**: after dropping recently-selected URLs, any source contributing more
than `max_per_source = max(2, len(fresh) // num_sources)` articles contributes
exactly `max_per_source` to the filter output, namely the top of its group
under the stable descending recency sort (published timestamp, falling back to
the scrape timestamp, then to `now`) — every kept article is at least as
recent as every dropped one. -/
theorem C8_theorem (now : Int) (recently : List String) (arts : List Article) (s : String)
    (hpres : ∀ a ∈ arts, FieldsPresent a)
    (hN : ((freshArticles recently arts).filter
        (fun a => a.source_name.getD "" = s)).length > maxPerSource recently arts) :
    applyDiversityFiltering now recently arts = .ok (diversityCore now recently arts) ∧
    maxPerSource recently arts =
      max 2 ((freshArticles recently arts).length /
        (sourcesOf (freshArticles recently arts)).length) ∧
    ((diversityCore now recently arts).filter (fun a => a.source_name.getD "" = s)) =
      ((((freshArticles recently arts).filter
          (fun a => a.source_name.getD "" = s)).mergeSort
        (fun x y => decide (getSortKey now y ≤ getSortKey now x))).take
          (maxPerSource recently arts)) ∧
    ((diversityCore now recently arts).filter
        (fun a => a.source_name.getD "" = s)).length = maxPerSource recently arts ∧
    (∀ x ∈ ((((freshArticles recently arts).filter
          (fun a => a.source_name.getD "" = s)).mergeSort
        (fun x y => decide (getSortKey now y ≤ getSortKey now x))).take
          (maxPerSource recently arts)),
      ∀ y ∈ ((((freshArticles recently arts).filter
          (fun a => a.source_name.getD "" = s)).mergeSort
        (fun x y => decide (getSortKey now y ≤ getSortKey now x))).drop
          (maxPerSource recently arts)),
        getSortKey now y ≤ getSortKey now x) := by
  set fresh := freshArticles recently arts with hfresh
  set grp := fresh.filter (fun a => a.source_name.getD "" = s) with hgrp
  set cap := maxPerSource recently arts with hcap
  set srt := grp.mergeSort (fun x y => decide (getSortKey now y ≤ getSortKey now x)) with hsrt
  have hgrp_ne : grp ≠ [] := by
    intro hnil
    rw [hnil] at hN
    simp at hN
  obtain ⟨a0, ha0⟩ := List.exists_mem_of_ne_nil _ hgrp_ne
  have ha0s : a0.source_name.getD "" = s := by
    have := (List.mem_filter.mp ha0).2
    simpa using this
  have ha0fresh : a0 ∈ fresh := List.mem_of_mem_filter ha0
  have hs_mem : s ∈ sourcesOf fresh := ha0s ▸ source_mem_sourcesOf ha0fresh
  have hns : (sourcesOf fresh).length ≠ 0 := by
    intro h0
    rw [List.length_eq_zero.mp h0] at hs_mem
    cases hs_mem
  have hcap_eq : cap = max 2 (fresh.length / (sourcesOf fresh).length) := by
    rw [hcap]
    unfold maxPerSource
    rw [if_neg (by rw [← hfresh]; exact hns)]
  -- the group's chunk is exactly what survives the output filter
  have hfilter_chunk : ∀ t : String,
      ((((fresh.filter (fun a => a.source_name.getD "" = t)).mergeSort
          (fun x y => decide (getSortKey now y ≤ getSortKey now x))).take cap).filter
        (fun a => a.source_name.getD "" = s)) =
      if t = s then srt.take cap else [] := by
    intro t
    by_cases hts : t = s
    · subst hts
      rw [if_pos rfl, hsrt, ← hgrp]
      rw [List.filter_eq_self.mpr]
      intro a ha
      have h1 := List.mem_of_mem_take ha
      have h2 := (List.mergeSort_perm _ _).mem_iff.mp h1
      exact (List.mem_filter.mp h2).2
    · rw [if_neg hts]
      rw [List.filter_eq_nil_iff]
      intro a ha
      have h1 := List.mem_of_mem_take ha
      have h2 := (List.mergeSort_perm _ _).mem_iff.mp h1
      have h3 := (List.mem_filter.mp h2).2
      simp only [decide_eq_true_eq] at h3 ⊢
      rw [h3]
      exact hts
  have hout_filter : (diversityCore now recently arts).filter
      (fun a => a.source_name.getD "" = s) = srt.take cap := by
    unfold diversityCore
    rw [List.filter_flatMap]
    have hcong : ∀ t ∈ sourcesOf fresh,
        (((((freshArticles recently arts).filter
            (fun a => a.source_name.getD "" = t)).mergeSort
          (fun x y => decide (getSortKey now y ≤ getSortKey now x))).take
            (maxPerSource recently arts)).filter
          (fun a => a.source_name.getD "" = s)) =
        (fun k => if k = s then srt.take cap else []) t := by
      intro t _
      exact hfilter_chunk t
    rw [List.flatMap_congr hcong]
    exact flatMap_single_key (nodup_foldl_insertNew _ [] (by simp)) hs_mem
  have hsrt_len : srt.length = grp.length := List.length_mergeSort _
  have hcount : (srt.take cap).length = cap := by
    rw [List.length_take, hsrt_len]
    omega
  have hsorted : List.Pairwise
      (fun x y => (fun x y => decide (getSortKey now y ≤ getSortKey now x)) x y = true)
      srt := by
    refine List.sorted_mergeSort ?_ ?_ grp
    · intro a b c hab hbc
      simp only [decide_eq_true_eq] at hab hbc ⊢
      omega
    · intro a b
      simp only [Bool.or_eq_true, decide_eq_true_eq]
      omega
  refine ⟨applyDiversityFiltering_eq_core now recently hpres, hcap_eq, hout_filter, ?_, ?_⟩
  · rw [hout_filter]
    exact hcount
  · intro x hx y hy
    have hsorted2 : List.Pairwise
        (fun a b => decide (getSortKey now b ≤ getSortKey now a) = true)
        (srt.take cap ++ srt.drop cap) := by
      rw [List.take_append_drop]
      exact hsorted
    have h3 := (List.pairwise_append.mp hsorted2).2.2 x hx y hy
    simpa using h3

/-- **C8 (witness)** at a concrete pool: two sources, five fresh articles,
`max_per_source = max 2 (5 / 2) = 2 < 3` articles from source "A". -/
theorem C8_witness :
    applyDiversityFiltering 0 []
        [ceK "A" 1 1, ceK "B" 9 9, ceK "A" 3 3, ceK "A" 2 2, ceK "B" 8 8] =
      .ok (diversityCore 0 []
        [ceK "A" 1 1, ceK "B" 9 9, ceK "A" 3 3, ceK "A" 2 2, ceK "B" 8 8]) ∧
    maxPerSource [] [ceK "A" 1 1, ceK "B" 9 9, ceK "A" 3 3, ceK "A" 2 2, ceK "B" 8 8] =
      max 2 ((freshArticles []
          [ceK "A" 1 1, ceK "B" 9 9, ceK "A" 3 3, ceK "A" 2 2, ceK "B" 8 8]).length /
        (sourcesOf (freshArticles []
          [ceK "A" 1 1, ceK "B" 9 9, ceK "A" 3 3, ceK "A" 2 2, ceK "B" 8 8])).length) ∧
    ((diversityCore 0 []
        [ceK "A" 1 1, ceK "B" 9 9, ceK "A" 3 3, ceK "A" 2 2, ceK "B" 8 8]).filter
      (fun a => a.source_name.getD "" = "A")) =
      ((((freshArticles []
          [ceK "A" 1 1, ceK "B" 9 9, ceK "A" 3 3, ceK "A" 2 2, ceK "B" 8 8]).filter
        (fun a => a.source_name.getD "" = "A")).mergeSort
        (fun x y => decide (getSortKey 0 y ≤ getSortKey 0 x))).take
          (maxPerSource [] [ceK "A" 1 1, ceK "B" 9 9, ceK "A" 3 3, ceK "A" 2 2, ceK "B" 8 8])) ∧
    ((diversityCore 0 []
        [ceK "A" 1 1, ceK "B" 9 9, ceK "A" 3 3, ceK "A" 2 2, ceK "B" 8 8]).filter
      (fun a => a.source_name.getD "" = "A")).length =
      maxPerSource [] [ceK "A" 1 1, ceK "B" 9 9, ceK "A" 3 3, ceK "A" 2 2, ceK "B" 8 8] ∧
    (∀ x ∈ ((((freshArticles []
          [ceK "A" 1 1, ceK "B" 9 9, ceK "A" 3 3, ceK "A" 2 2, ceK "B" 8 8]).filter
        (fun a => a.source_name.getD "" = "A")).mergeSort
        (fun x y => decide (getSortKey 0 y ≤ getSortKey 0 x))).take
          (maxPerSource [] [ceK "A" 1 1, ceK "B" 9 9, ceK "A" 3 3, ceK "A" 2 2, ceK "B" 8 8])),
      ∀ y ∈ ((((freshArticles []
          [ceK "A" 1 1, ceK "B" 9 9, ceK "A" 3 3, ceK "A" 2 2, ceK "B" 8 8]).filter
        (fun a => a.source_name.getD "" = "A")).mergeSort
        (fun x y => decide (getSortKey 0 y ≤ getSortKey 0 x))).drop
          (maxPerSource [] [ceK "A" 1 1, ceK "B" 9 9, ceK "A" 3 3, ceK "A" 2 2, ceK "B" 8 8])),
        getSortKey 0 y ≤ getSortKey 0 x) :=
  C8_theorem 0 [] [ceK "A" 1 1, ceK "B" 9 9, ceK "A" 3 3, ceK "A" 2 2, ceK "B" 8 8] "A"
    (by decide) (by decide)

theorem char_eq_iff_toNat (a b : Char) : a = b ↔ a.toNat = b.toNat := by
  constructor
  · intro h; rw [h]
  · intro h
    exact Char.ext (UInt32.ext_iff.mpr h)

theorem toNat_ofNat_of_lt (n : Nat) (h : n < 55296) : (Char.ofNat n).toNat = n := by
  unfold Char.ofNat
  rw [dif_pos (Or.inl h)]
  simp only [Char.toNat, Char.ofNatAux]
  rw [UInt32.toNat, BitVec.toNat_ofNatLt]

theorem lowerChar_toNat (c : Char) :
    (lowerChar c).toNat = if 65 ≤ c.toNat ∧ c.toNat ≤ 90 then c.toNat + 32 else c.toNat := by
  unfold lowerChar
  split
  · rename_i h
    rw [toNat_ofNat_of_lt _ (by omega)]
  · rfl

theorem lowerChar_eq_self (c : Char) (h : ¬(65 ≤ c.toNat ∧ c.toNat ≤ 90)) :
    lowerChar c = c := by
  unfold lowerChar
  rw [if_neg h]

theorem lowerChar_fixed (c : Char) : lowerChar (lowerChar c) = lowerChar c := by
  apply lowerChar_eq_self
  rw [lowerChar_toNat]
  split <;> omega

theorem mem_lowerL_fixed (c : Char) (l : List Char) (h : c ∈ lowerL l) :
    lowerChar c = c := by
  unfold lowerL at h
  obtain ⟨x, _, hx⟩ := List.mem_map.mp h
  rw [← hx]
  exact lowerChar_fixed x

theorem lowerL_eq_self (l : List Char) (h : ∀ c ∈ l, lowerChar c = c) :
    lowerL l = l := by
  unfold lowerL
  induction l with
  | nil => rfl
  | cons a as ih =>
    simp only [List.map_cons]
    rw [h a (List.mem_cons_self a as), ih (fun c hc => h c (List.mem_cons_of_mem a hc))]

theorem isAlpha_iff (c : Char) :
    c.isAlpha = true ↔ (65 ≤ c.toNat ∧ c.toNat ≤ 90) ∨ (97 ≤ c.toNat ∧ c.toNat ≤ 122) := by
  simp [Char.isAlpha, Char.isUpper, Char.isLower, Char.le_def, UInt32.le_def, BitVec.le_def, Char.toNat, UInt32.toNat]

theorem splitFirstAt_of_not_mem (c : Char) (l : List Char) (h : ∀ x ∈ l, x ≠ c) :
    splitFirstAt c l = none := by
  induction l with
  | nil => rfl
  | cons a as ih =>
    unfold splitFirstAt
    rw [if_neg (h a (List.mem_cons_self a as))]
    rw [ih (fun x hx => h x (List.mem_cons_of_mem a hx))]
    rfl

theorem splitFirstAt_append (c : Char) (a b : List Char) (h : ∀ x ∈ a, x ≠ c) :
    splitFirstAt c (a ++ c :: b) = some (a, b) := by
  induction a with
  | nil => simp [splitFirstAt]
  | cons x xs ih =>
    unfold splitFirstAt
    simp only [List.cons_append]
    rw [if_neg (h x (List.mem_cons_self x xs))]
    rw [ih (fun y hy => h y (List.mem_cons_of_mem x hy))]
    rfl

theorem splitAtFirstP_append (p : Char → Bool) (a r : List Char)
    (h : ∀ x ∈ a, p x = false) :
    splitAtFirstP p (a ++ r) = (a ++ (splitAtFirstP p r).1, (splitAtFirstP p r).2) := by
  induction a with
  | nil => simp
  | cons x xs ih =>
    have hx : p x = false := h x (List.mem_cons_self x xs)
    have step : splitAtFirstP p (x :: (xs ++ r)) =
        (x :: (splitAtFirstP p (xs ++ r)).1, (splitAtFirstP p (xs ++ r)).2) := by
      conv_lhs => unfold splitAtFirstP
      rw [if_neg (by simp [hx])]
    simp only [List.cons_append, step, ih (fun y hy => h y (List.mem_cons_of_mem x hy))]

theorem splitAtFirstP_head (p : Char → Bool) (r : List Char)
    (h : r = [] ∨ ∃ d t, r = d :: t ∧ p d = true) :
    splitAtFirstP p r = ([], r) := by
  rcases h with h | ⟨d, t, rfl, hd⟩
  · rw [h]; rfl
  · unfold splitAtFirstP
    rw [if_pos hd]

theorem of_schemeChar (c : Char) (h : c ∈ schemeChars) :
    isUnsafeUrlByte c = false ∧ isPyWs c = false ∧ c ≠ ':' ∧ c ≠ '/' ∧ c ≠ '?' ∧
      c ≠ '#' ∧ isC0OrSpace c = false := by
  have hall : ∀ x ∈ schemeChars,
      (!isUnsafeUrlByte x && !isPyWs x && !(x == ':') && !(x == '/') && !(x == '?') &&
        !(x == '#') && !isC0OrSpace x) = true := by decide
  have hc := hall c h
  simp only [Bool.and_eq_true, Bool.not_eq_true', beq_eq_false_iff_ne] at hc
  exact ⟨hc.1.1.1.1.1.1, hc.1.1.1.1.1.2, hc.1.1.1.1.2, hc.1.1.1.2, hc.1.1.2, hc.1.2, hc.2⟩

theorem of_goodHostChar (c : Char) (h : goodHostChar c = true) :
    c ≠ '/' ∧ c ≠ '?' ∧ c ≠ '#' ∧ c ≠ '[' ∧ c ≠ ']' ∧ isUnsafeUrlByte c = false ∧
      isPyWs c = false := by
  unfold goodHostChar at h
  simp only [Bool.not_eq_true', Bool.or_eq_false_iff, decide_eq_false_iff_not] at h
  exact ⟨h.1.1.1.1.1.1, h.1.1.1.1.1.2, h.1.1.1.1.2, h.1.1.1.2, h.1.1.2, h.1.2, h.2⟩

theorem of_goodPathChar (c : Char) (h : goodPathChar c = true) :
    c ≠ '?' ∧ c ≠ '#' ∧ c ≠ ';' ∧ isUnsafeUrlByte c = false ∧ isPyWs c = false := by
  unfold goodPathChar at h
  simp only [Bool.not_eq_true', Bool.or_eq_false_iff, decide_eq_false_iff_not] at h
  exact ⟨h.1.1.1.1, h.1.1.1.2, h.1.1.2, h.1.2, h.2⟩

theorem of_goodQueryChar (c : Char) (h : goodQueryChar c = true) :
    c ≠ '#' ∧ isUnsafeUrlByte c = false ∧ isPyWs c = false := by
  unfold goodQueryChar at h
  simp only [Bool.not_eq_true', Bool.or_eq_false_iff, decide_eq_false_iff_not] at h
  exact ⟨h.1.1, h.1.2, h.2⟩

theorem of_goodFragChar (c : Char) (h : goodFragChar c = true) :
    isUnsafeUrlByte c = false ∧ isPyWs c = false := by
  unfold goodFragChar at h
  simp only [Bool.not_eq_true', Bool.or_eq_false_iff] at h
  exact ⟨h.1, h.2⟩

theorem isAlpha_not_c0 (c : Char) (h : c.isAlpha = true) : isC0OrSpace c = false := by
  have hi := (isAlpha_iff c).mp h
  unfold isC0OrSpace
  simp only [decide_eq_false_iff_not]
  omega

theorem startsWithL_nil (l : List Char) : startsWithL l [] = true := by
  cases l <;> rfl

theorem containsC_eq_false (c : Char) (l : List Char) (h : ∀ x ∈ l, x ≠ c) :
    containsC c l = false := by
  unfold containsC
  rw [Bool.eq_false_iff]
  intro hc
  exact h c (List.elem_iff.mp hc) rfl

theorem mem_mkUrlL (a : Char) (s hst p : List Char) (q f : Option (List Char))
    (ha : a ∈ mkUrlL s hst p q f) :
    a ∈ s ∨ a = ':' ∨ a = '/' ∨ a ∈ hst ∨ a ∈ p ∨ a ∈ optPre '?' q ∨ a ∈ optPre '#' f := by
  simp only [mkUrlL, List.mem_append, List.mem_cons] at ha
  tauto

theorem mkUrl_char_safe (s hst p : List Char) (q f : Option (List Char))
    (hs : goodSchemeB s = true) (hh : goodHostB hst = true) (hp : goodPathB p = true)
    (hq : goodQueryB q = true) (hf : goodFragB f = true) :
    ∀ a ∈ mkUrlL s hst p q f, isUnsafeUrlByte a = false ∧ isPyWs a = false := by
  intro a ha
  have hsch : ∀ x ∈ s, x ∈ schemeChars := by
    rcases s with _ | ⟨c, cs⟩
    · intro x hx; exact absurd hx (List.not_mem_nil x)
    · unfold goodSchemeB at hs
      simp only [Bool.and_eq_true, List.all_eq_true] at hs
      intro x hx
      exact List.elem_iff.mp (hs.2 x hx)
  have hhall : ∀ x ∈ hst, goodHostChar x = true := List.all_eq_true.mp hh
  have hpall : ∀ x ∈ p, goodPathChar x = true := by
    unfold goodPathB at hp
    simp only [Bool.and_eq_true, List.all_eq_true] at hp
    exact hp.2
  rcases mem_mkUrlL a s hst p q f ha with h | h | h | h | h | h | h
  · have := of_schemeChar a (hsch a h); exact ⟨this.1, this.2.1⟩
  · subst h; exact ⟨rfl, rfl⟩
  · subst h; exact ⟨rfl, rfl⟩
  · have := of_goodHostChar a (hhall a h); exact ⟨this.2.2.2.2.2.1, this.2.2.2.2.2.2⟩
  · have := of_goodPathChar a (hpall a h); exact ⟨this.2.2.2.1, this.2.2.2.2⟩
  · rcases q with _ | ql
    · exact absurd h (List.not_mem_nil a)
    · unfold goodQueryB at hq
      rcases List.mem_cons.mp h with rfl | h2
      · exact ⟨rfl, rfl⟩
      · have := of_goodQueryChar a (List.all_eq_true.mp hq a h2)
        exact ⟨this.2.1, this.2.2⟩
  · rcases f with _ | fl
    · exact absurd h (List.not_mem_nil a)
    · unfold goodFragB at hf
      rcases List.mem_cons.mp h with rfl | h2
      · exact ⟨rfl, rfl⟩
      · exact of_goodFragChar a (List.all_eq_true.mp hf a h2)

theorem pyUrlsplit_mkUrl (s hst p : List Char) (q f : Option (List Char))
    (hs : goodSchemeB s = true) (hh : goodHostB hst = true) (hp : goodPathB p = true)
    (hq : goodQueryB q = true) (hf : goodFragB f = true) :
    pyUrlsplit (mkUrlL s hst p q f) =
      Except.ok (lowerL s, hst, p, q.getD [], f.getD []) := by
  rcases s with _ | ⟨c, cs⟩
  · exact absurd hs (by simp [goodSchemeB])
  have hs' := hs
  unfold goodSchemeB at hs'
  simp only [Bool.and_eq_true, List.all_eq_true] at hs'
  obtain ⟨hAlpha, hSchAll⟩ := hs'
  have hsch : ∀ x ∈ c :: cs, x ∈ schemeChars := fun x hx => List.elem_iff.mp (hSchAll x hx)
  have hhall : ∀ x ∈ hst, goodHostChar x = true := List.all_eq_true.mp hh
  have hpHead : p.isEmpty = true ∨ p.head? = some '/' := by
    unfold goodPathB at hp
    simp only [Bool.and_eq_true, Bool.or_eq_true, beq_iff_eq] at hp
    rcases hp.1 with h | h
    · exact Or.inl h
    · exact Or.inr h
  have hpall : ∀ x ∈ p, goodPathChar x = true := by
    unfold goodPathB at hp
    simp only [Bool.and_eq_true, List.all_eq_true] at hp
    exact hp.2
  have hqall : ∀ x ∈ optPre '?' q, x = '?' ∨ goodQueryChar x = true := by
    rcases q with _ | ql
    · intro x hx; exact absurd hx (List.not_mem_nil x)
    · intro x hx
      rcases List.mem_cons.mp hx with rfl | h2
      · exact Or.inl rfl
      · exact Or.inr (List.all_eq_true.mp hq x h2)
  have hU : mkUrlL (c :: cs) hst p q f =
      (c :: cs) ++ ':' :: ('/' :: '/' :: (hst ++ p ++ optPre '?' q ++ optPre '#' f)) := rfl
  have hA : lstripP isC0OrSpace (mkUrlL (c :: cs) hst p q f) =
      mkUrlL (c :: cs) hst p q f := by
    show List.dropWhile _ _ = _
    rw [show mkUrlL (c :: cs) hst p q f =
      c :: (cs ++ ':' :: ('/' :: '/' :: (hst ++ p ++ optPre '?' q ++ optPre '#' f))) from rfl]
    rw [List.dropWhile_cons, if_neg (by simp [isAlpha_not_c0 c hAlpha])]
  have hB : (mkUrlL (c :: cs) hst p q f).filter (fun x => !isUnsafeUrlByte x) =
      mkUrlL (c :: cs) hst p q f := by
    apply List.filter_eq_self.mpr
    intro a ha
    simp [(mkUrl_char_safe (c :: cs) hst p q f hs hh hp hq hf a ha).1]
  have hC : splitFirstAt ':' (mkUrlL (c :: cs) hst p q f) =
      some (c :: cs, '/' :: '/' :: (hst ++ p ++ optPre '?' q ++ optPre '#' f)) := by
    rw [hU]
    exact splitFirstAt_append ':' _ _ (fun x hx => (of_schemeChar x (hsch x hx)).2.2.1)
  have hD : splitAtFirstP (fun x => x = '/' || x = '?' || x = '#')
      (hst ++ p ++ optPre '?' q ++ optPre '#' f) =
      (hst, p ++ optPre '?' q ++ optPre '#' f) := by
    have hrest : splitAtFirstP (fun x => x = '/' || x = '?' || x = '#')
        (p ++ optPre '?' q ++ optPre '#' f) = ([], p ++ optPre '?' q ++ optPre '#' f) := by
      apply splitAtFirstP_head
      rcases p with _ | ⟨px, pt⟩
      · rcases q with _ | ql
        · rcases f with _ | fl
          · exact Or.inl rfl
          · exact Or.inr ⟨'#', fl, rfl, by decide⟩
        · exact Or.inr ⟨'?', ql ++ optPre '#' f, by simp [optPre], by decide⟩
      · have hpx : px = '/' := by
          rcases hpHead with h | h
          · exact absurd h (by simp)
          · simpa using h
        subst hpx
        exact Or.inr ⟨'/', pt ++ optPre '?' q ++ optPre '#' f, by simp, by decide⟩
    have hassoc : hst ++ p ++ optPre '?' q ++ optPre '#' f =
        hst ++ (p ++ optPre '?' q ++ optPre '#' f) := by
      simp only [List.append_assoc]
    rw [hassoc, splitAtFirstP_append _ _ _ (fun x hx => by
      have := of_goodHostChar x (hhall x hx)
      simp [this.1, this.2.1, this.2.2.1]), hrest]
    simp
  have hBr1 : containsC '[' hst = false :=
    containsC_eq_false _ _ (fun x hx => (of_goodHostChar x (hhall x hx)).2.2.2.1)
  have hBr2 : containsC ']' hst = false :=
    containsC_eq_false _ _ (fun x hx => (of_goodHostChar x (hhall x hx)).2.2.2.2.1)
  have hF : splitFirstAt '#' (p ++ optPre '?' q ++ optPre '#' f) =
      f.map (fun fl => (p ++ optPre '?' q, fl)) := by
    have hnh : ∀ x ∈ p ++ optPre '?' q, x ≠ '#' := by
      intro x hx
      rcases List.mem_append.mp hx with h | h
      · exact (of_goodPathChar x (hpall x h)).2.1
      · rcases hqall x h with rfl | h2
        · decide
        · exact (of_goodQueryChar x h2).1
    rcases f with _ | fl
    · show splitFirstAt '#' (p ++ optPre '?' q ++ []) = none
      rw [List.append_nil]
      exact splitFirstAt_of_not_mem '#' _ hnh
    · show splitFirstAt '#' (p ++ optPre '?' q ++ '#' :: fl) = some (p ++ optPre '?' q, fl)
      exact splitFirstAt_append '#' _ _ hnh
  have hG : splitFirstAt '?' (p ++ optPre '?' q) = q.map (fun ql => (p, ql)) := by
    have hnp : ∀ x ∈ p, x ≠ '?' := fun x hx => (of_goodPathChar x (hpall x hx)).1
    rcases q with _ | ql
    · show splitFirstAt '?' (p ++ []) = none
      rw [List.append_nil]
      exact splitFirstAt_of_not_mem '?' _ hnp
    · show splitFirstAt '?' (p ++ '?' :: ql) = some (p, ql)
      exact splitFirstAt_append '?' _ _ hnp
  have hcond : (decide ((c :: cs).length > 0) &&
      (charAt (mkUrlL (c :: cs) hst p q f) 0).isAlpha &&
      (c :: cs).all (fun x => schemeChars.contains x)) = true := by
    simp only [Bool.and_eq_true]
    refine ⟨⟨by simp, ?_⟩, List.all_eq_true.mpr hSchAll⟩
    rw [show charAt (mkUrlL (c :: cs) hst p q f) 0 = c from rfl]
    exact hAlpha
  have hE : startsWithL ('/' :: '/' :: (hst ++ p ++ optPre '?' q ++ optPre '#' f))
      (("//" : String).toList) = true := by
    rw [show ("//" : String).toList = ['/', '/'] from rfl]
    simp [startsWithL, startsWithL_nil]
  unfold pyUrlsplit
  try dsimp only
  rw [hA, hB, hC]
  try dsimp only
  simp only [hcond, eq_self_iff_true, if_true]
  rw [if_pos (of_eq_true (eq_true hE))]
  dsimp only [List.drop_succ_cons, List.drop_zero]
  rw [hD]
  try dsimp only
  rw [hBr1, hBr2]
  rw [Bool.or_self]
  rw [if_neg (by simp)]
  simp only [except_pure_eq, except_bind_ok]
  rw [hF]
  rcases f with _ | fl <;>
    simp only [Option.map, show optPre '#' none = [] from rfl,
      show (fun fl => optPre '#' (some fl)) = (fun fl => '#' :: fl) from rfl,
      List.append_nil] <;> rw [hG] <;>
    rcases q with _ | ql <;> simp [optPre]

theorem pyUrlparse_mkUrl (s hst p : List Char) (q f : Option (List Char))
    (hs : goodSchemeB s = true) (hh : goodHostB hst = true) (hp : goodPathB p = true)
    (hq : goodQueryB q = true) (hf : goodFragB f = true) :
    pyUrlparse (mkUrlL s hst p q f) =
      Except.ok ⟨lowerL s, hst, p, [], q.getD [], f.getD []⟩ := by
  have hpall : ∀ x ∈ p, goodPathChar x = true := by
    unfold goodPathB at hp
    simp only [Bool.and_eq_true, List.all_eq_true] at hp
    exact hp.2
  have hsemi : containsC ';' p = false :=
    containsC_eq_false _ _ (fun x hx => (of_goodPathChar x (hpall x hx)).2.2.1)
  unfold pyUrlparse
  rw [pyUrlsplit_mkUrl s hst p q f hs hh hp hq hf]
  rw [except_bind_ok]
  dsimp only
  rw [hsemi]
  simp

theorem normalizeUrlL_mkUrl (s hst p : List Char) (q f : Option (List Char))
    (hs : goodSchemeB s = true) (hh : goodHostB hst = true) (hp : goodPathB p = true)
    (hq : goodQueryB q = true) (hf : goodFragB f = true) :
    normalizeUrlL (mkUrlL s hst p q f) =
      lowerL s ++ ("://" : String).toList ++ wwwStrip (lowerL hst) ++
        lowerL (rstripSlash p) := by
  have hne : mkUrlL s hst p q f ≠ [] := by
    rcases s with _ | ⟨c, cs⟩
    · exact absurd hs (by simp [goodSchemeB])
    · simp [mkUrlL]
  unfold normalizeUrlL
  rw [if_neg hne]
  rw [pyUrlparse_mkUrl s hst p q f hs hh hp hq hf]

theorem dropWhile_eq_self_of (p : Char → Bool) (l : List Char)
    (h : ∀ c ∈ l, p c = false) : l.dropWhile p = l := by
  cases l with
  | nil => rfl
  | cons a as =>
    rw [List.dropWhile_cons, if_neg (by simp [h a (List.mem_cons_self a as)])]

theorem stripL_eq_self (l : List Char) (h : ∀ c ∈ l, isPyWs c = false) :
    stripL l = l := by
  unfold stripL
  rw [dropWhile_eq_self_of _ _ h,
    dropWhile_eq_self_of _ _ (fun c hc => h c (List.mem_reverse.mp hc)),
    List.reverse_reverse]

theorem removeUrlDuplicates_pair (a1 a2 : Article) (u1 u2 : List Char)
    (h1 : a1.url = some (String.mk u1)) (h2 : a2.url = some (String.mk u2))
    (hw1 : ∀ c ∈ u1, isPyWs c = false) (hw2 : ∀ c ∈ u2, isPyWs c = false)
    (hne1 : u1 ≠ []) (hne2 : u2 ≠ [])
    (heq : normalizeUrl (String.mk u1) = normalizeUrl (String.mk u2)) :
    removeUrlDuplicates [a1, a2] = [a1] := by
  have hstr1 : String.mk (stripL (a1.url.getD "").toList) = String.mk u1 := by
    rw [h1]
    show String.mk (stripL u1) = String.mk u1
    rw [stripL_eq_self u1 hw1]
  have hstr2 : String.mk (stripL (a2.url.getD "").toList) = String.mk u2 := by
    rw [h2]
    show String.mk (stripL u2) = String.mk u2
    rw [stripL_eq_self u2 hw2]
  have hne1' : String.mk u1 ≠ "" := by
    intro hc
    exact hne1 (congrArg String.data hc)
  have hne2' : String.mk u2 ≠ "" := by
    intro hc
    exact hne2 (congrArg String.data hc)
  unfold removeUrlDuplicates
  show (urlStep (urlStep ([], []) a1) a2).2 = [a1]
  unfold urlStep
  dsimp only
  rw [hstr1, hstr2, if_neg hne1', if_neg hne2', ← heq]
  simp

/-- C3 (corrected): two URLs that differ only in query string, only in
fragment, or in both — over a common well-formed `scheme://host path` —
normalize to the same string, and two articles carrying them collapse to the
first one in `remove_url_duplicates`.  (The scheme itself is NOT dropped:
URLs differing only by scheme keep distinct normal forms, see the
counterexample.) -/
theorem C3_theorem (s hst p : List Char) (q1 f1 q2 f2 : Option (List Char))
    (hs : goodSchemeB s = true) (hh : goodHostB hst = true) (hp : goodPathB p = true)
    (hq1 : goodQueryB q1 = true) (hf1 : goodFragB f1 = true)
    (hq2 : goodQueryB q2 = true) (hf2 : goodFragB f2 = true) :
    normalizeUrl (String.mk (mkUrlL s hst p q1 f1)) =
      normalizeUrl (String.mk (mkUrlL s hst p q2 f2)) ∧
    (∀ a1 a2 : Article, a1.url = some (String.mk (mkUrlL s hst p q1 f1)) →
      a2.url = some (String.mk (mkUrlL s hst p q2 f2)) →
      removeUrlDuplicates [a1, a2] = [a1]) := by
  have hne : mkUrlL s hst p q1 f1 ≠ [] ∧ mkUrlL s hst p q2 f2 ≠ [] := by
    rcases s with _ | ⟨c, cs⟩
    · exact absurd hs (by simp [goodSchemeB])
    · exact ⟨by simp [mkUrlL], by simp [mkUrlL]⟩
  have heq : normalizeUrl (String.mk (mkUrlL s hst p q1 f1)) =
      normalizeUrl (String.mk (mkUrlL s hst p q2 f2)) := by
    show String.mk (normalizeUrlL (mkUrlL s hst p q1 f1)) =
      String.mk (normalizeUrlL (mkUrlL s hst p q2 f2))
    rw [normalizeUrlL_mkUrl s hst p q1 f1 hs hh hp hq1 hf1,
      normalizeUrlL_mkUrl s hst p q2 f2 hs hh hp hq2 hf2]
  refine ⟨heq, fun a1 a2 h1 h2 => ?_⟩
  exact removeUrlDuplicates_pair a1 a2 _ _ h1 h2
    (fun c hc => (mkUrl_char_safe s hst p q1 f1 hs hh hp hq1 hf1 c hc).2)
    (fun c hc => (mkUrl_char_safe s hst p q2 f2 hs hh hp hq2 hf2 c hc).2)
    hne.1 hne.2 heq

/-- C3 counterexample: the spec says URLs differing only by scheme normalize
identically; in the code the scheme is kept, so `http://x.com/a` and
`https://x.com/a` normalize to distinct strings. -/
theorem C3_counterexample :
    normalizeUrl "http://x.com/a" ≠ normalizeUrl "https://x.com/a" := by decide

/-- C3 witness: the theorem applied at `https://x.com/a?utm_source=y` versus
`https://x.com/a` (the spec's own example pair). -/
theorem C3_witness :
    normalizeUrl (String.mk (mkUrlL "https".toList "x.com".toList "/a".toList
        (some "utm_source=y".toList) none)) =
      normalizeUrl (String.mk (mkUrlL "https".toList "x.com".toList "/a".toList
        none none)) ∧
    removeUrlDuplicates
        [{ (default : Article) with url := some (String.mk (mkUrlL "https".toList
            "x.com".toList "/a".toList (some "utm_source=y".toList) none)) },
         { (default : Article) with url := some (String.mk (mkUrlL "https".toList
            "x.com".toList "/a".toList none none)) }] =
      [{ (default : Article) with url := some (String.mk (mkUrlL "https".toList
          "x.com".toList "/a".toList (some "utm_source=y".toList) none)) }] := by
  have h := C3_theorem "https".toList "x.com".toList "/a".toList
    (some "utm_source=y".toList) none none none
    (by decide) (by decide) (by decide) (by decide) (by decide) (by decide) (by decide)
  exact ⟨h.1, h.2 _ _ rfl rfl⟩

theorem lowerChar_cases (c : Char) :
    lowerChar c = c ∨ (97 ≤ (lowerChar c).toNat ∧ (lowerChar c).toNat ≤ 122) := by
  by_cases h : 65 ≤ c.toNat ∧ c.toNat ≤ 90
  · right
    rw [lowerChar_toNat, if_pos h]
    omega
  · exact Or.inl (lowerChar_eq_self c h)

theorem ne_of_lt_toNat (d e : Char) (h1 : 97 ≤ d.toNat) (h2 : e.toNat < 97) : d ≠ e := by
  intro hd
  subst hd
  omega

theorem goodHostChar_of_lower_range (d : Char) (h1 : 97 ≤ d.toNat) (_h2 : d.toNat ≤ 122) :
    goodHostChar d = true := by
  unfold goodHostChar isUnsafeUrlByte isPyWs
  simp only [Bool.not_eq_true', Bool.or_eq_false_iff, decide_eq_false_iff_not]
  repeat' apply And.intro
  all_goals exact ne_of_lt_toNat d _ h1 (by decide)

theorem goodPathChar_of_lower_range (d : Char) (h1 : 97 ≤ d.toNat) (_h2 : d.toNat ≤ 122) :
    goodPathChar d = true := by
  unfold goodPathChar isUnsafeUrlByte isPyWs
  simp only [Bool.not_eq_true', Bool.or_eq_false_iff, decide_eq_false_iff_not]
  repeat' apply And.intro
  all_goals exact ne_of_lt_toNat d _ h1 (by decide)

theorem goodHostChar_lower (c : Char) (h : goodHostChar c = true) :
    goodHostChar (lowerChar c) = true := by
  rcases lowerChar_cases c with he | ⟨h1, h2⟩
  · rw [he]; exact h
  · exact goodHostChar_of_lower_range _ h1 h2

theorem goodPathChar_lower (c : Char) (h : goodPathChar c = true) :
    goodPathChar (lowerChar c) = true := by
  rcases lowerChar_cases c with he | ⟨h1, h2⟩
  · rw [he]; exact h
  · exact goodPathChar_of_lower_range _ h1 h2

theorem lowerChar_eq_slash_iff (c : Char) : lowerChar c = '/' ↔ c = '/' := by
  constructor
  · intro h
    rcases lowerChar_cases c with he | ⟨h1, h2⟩
    · rw [← he]; exact h
    · rw [h] at h1
      exact absurd h1 (by decide)
  · intro h
    subst h
    decide

theorem dropWhile_idem' (p : Char → Bool) (l : List Char) :
    (l.dropWhile p).dropWhile p = l.dropWhile p := by
  have h := List.head?_dropWhile_not p l
  cases hE : l.dropWhile p with
  | nil => rfl
  | cons a t =>
    rw [hE] at h
    simp only [List.head?_cons] at h
    rw [List.dropWhile_cons, if_neg (by simp [h])]

theorem rstripSlash_prefixOf (l : List Char) : rstripSlash l <+: l := by
  unfold rstripSlash
  have hs : (l.reverse.dropWhile (· = '/')) <:+ l.reverse := List.dropWhile_suffix _
  have := List.reverse_prefix.mpr hs
  rwa [List.reverse_reverse] at this

theorem prefix_head? {α : Type} (a b : List α) (h : a <+: b) :
    a = [] ∨ a.head? = b.head? := by
  rcases a with _ | ⟨x, xs⟩
  · exact Or.inl rfl
  · obtain ⟨t, ht⟩ := h
    right
    rw [← ht]
    rfl

theorem mem_rstripSlash (c : Char) (l : List Char) (h : c ∈ rstripSlash l) : c ∈ l :=
  (rstripSlash_prefixOf l).subset h

theorem mem_wwwStrip (c : Char) (l : List Char) (h : c ∈ wwwStrip l) : c ∈ l := by
  unfold wwwStrip at h
  split at h
  · exact List.mem_of_mem_drop h
  · exact h

theorem rstripSlash_rstripSlash (l : List Char) :
    rstripSlash (rstripSlash l) = rstripSlash l := by
  unfold rstripSlash
  rw [List.reverse_reverse, dropWhile_idem']

theorem rstripSlash_lowerL (l : List Char) :
    rstripSlash (lowerL l) = lowerL (rstripSlash l) := by
  unfold rstripSlash lowerL
  have hfun : ((fun x => decide (x = '/')) ∘ lowerChar) =
      (fun x : Char => decide (x = '/')) := by
    funext x
    simp only [Function.comp]
    by_cases hx : x = '/'
    · subst hx
      rw [decide_eq_true (show lowerChar '/' = '/' from by decide), decide_eq_true rfl]
    · rw [decide_eq_false (fun hc => hx ((lowerChar_eq_slash_iff x).mp hc)),
        decide_eq_false hx]
  rw [← List.map_reverse, List.dropWhile_map, hfun, List.map_reverse]

theorem lowerChar_isAlpha (c : Char) (h : c.isAlpha = true) :
    (lowerChar c).isAlpha = true := by
  rcases lowerChar_cases c with he | ⟨h1, h2⟩
  · rw [he]; exact h
  · exact (isAlpha_iff _).mpr (Or.inr ⟨h1, h2⟩)

theorem lowerL_lowerL (l : List Char) : lowerL (lowerL l) = lowerL l :=
  lowerL_eq_self _ (fun c hc => mem_lowerL_fixed c l hc)

theorem wwwStrip_eq_self (d : List Char)
    (h : startsWithL d (("www." : String).toList) = false) : wwwStrip d = d := by
  unfold wwwStrip
  rw [show (("www." : String).toList) = ['w', 'w', 'w', '.'] from rfl] at h
  rw [if_neg (by simp [h])]

theorem normalizeUrl_idem_parts (s hst p : List Char) (q f : Option (List Char))
    (hs : goodSchemeB s = true) (hh : goodHostB hst = true) (hp : goodPathB p = true)
    (hq : goodQueryB q = true) (hf : goodFragB f = true)
    (hw : startsWithL (wwwStrip (lowerL hst)) (("www." : String).toList) = false) :
    normalizeUrl (normalizeUrl (String.mk (mkUrlL s hst p q f))) =
      normalizeUrl (String.mk (mkUrlL s hst p q f)) := by
  have hhall : ∀ x ∈ hst, goodHostChar x = true := List.all_eq_true.mp hh
  have hpall : ∀ x ∈ p, goodPathChar x = true := by
    unfold goodPathB at hp
    simp only [Bool.and_eq_true, List.all_eq_true] at hp
    exact hp.2
  have hout : normalizeUrlL (mkUrlL s hst p q f) =
      lowerL s ++ ("://" : String).toList ++ wwwStrip (lowerL hst) ++
        lowerL (rstripSlash p) :=
    normalizeUrlL_mkUrl s hst p q f hs hh hp hq hf
  have hmk : lowerL s ++ ("://" : String).toList ++ wwwStrip (lowerL hst) ++
      lowerL (rstripSlash p) =
      mkUrlL (lowerL s) (wwwStrip (lowerL hst)) (lowerL (rstripSlash p)) none none := by
    simp [mkUrlL, optPre]
  -- well-formedness of the first-pass output parts
  have hs2 : goodSchemeB (lowerL s) = true := by
    rcases s with _ | ⟨c, cs⟩
    · exact absurd hs (by simp [goodSchemeB])
    have hs' := hs
    unfold goodSchemeB at hs'
    simp only [Bool.and_eq_true, List.all_eq_true] at hs'
    have hclose : ∀ y ∈ schemeChars, lowerChar y ∈ schemeChars := by decide
    show goodSchemeB (lowerChar c :: lowerL cs) = true
    unfold goodSchemeB
    simp only [Bool.and_eq_true, List.all_eq_true]
    constructor
    · exact lowerChar_isAlpha c hs'.1
    · intro x hx
      rcases List.mem_cons.mp hx with rfl | hx2
      · exact List.elem_iff.mpr (hclose c (List.elem_iff.mp (hs'.2 c (List.mem_cons_self c cs))))
      · obtain ⟨y, hy, rfl⟩ := List.mem_map.mp hx2
        exact List.elem_iff.mpr
          (hclose y (List.elem_iff.mp (hs'.2 y (List.mem_cons_of_mem c hy))))
  have hmemh : ∀ x ∈ wwwStrip (lowerL hst), ∃ y ∈ hst, x = lowerChar y := by
    intro x hx
    obtain ⟨y, hy, hxy⟩ := List.mem_map.mp (mem_wwwStrip x _ hx)
    exact ⟨y, hy, hxy.symm⟩
  have hh2 : goodHostB (wwwStrip (lowerL hst)) = true := by
    apply List.all_eq_true.mpr
    intro x hx
    obtain ⟨y, hy, rfl⟩ := hmemh x hx
    exact goodHostChar_lower y (hhall y hy)
  have hp2 : goodPathB (lowerL (rstripSlash p)) = true := by
    unfold goodPathB
    simp only [Bool.and_eq_true]
    constructor
    · rcases prefix_head? _ _ (rstripSlash_prefixOf p) with he | hhd
      · rw [he]
        simp [lowerL]
      · rcases p with _ | ⟨px, pt⟩
        · rw [show rstripSlash [] = [] from rfl]
          simp [lowerL]
        · have hpx : px = '/' := by
            unfold goodPathB at hp
            simp only [Bool.and_eq_true, Bool.or_eq_true, beq_iff_eq] at hp
            rcases hp.1 with h | h
            · exact absurd h (by simp)
            · simpa using h
          subst hpx
          rcases hre : rstripSlash ('/' :: pt) with _ | ⟨r0, rt⟩
          · simp [lowerL]
          · rw [hre] at hhd
            simp only [List.head?_cons] at hhd
            have hr0 : r0 = '/' := by simpa using hhd
            subst hr0
            simp [lowerL, show lowerChar '/' = '/' from by decide]
    · apply List.all_eq_true.mpr
      intro x hx
      obtain ⟨y, hy, rfl⟩ := List.mem_map.mp hx
      exact goodPathChar_lower y (hpall y (mem_rstripSlash y p hy))
  have hlh : lowerL (wwwStrip (lowerL hst)) = wwwStrip (lowerL hst) := by
    apply lowerL_eq_self
    intro c hc
    exact mem_lowerL_fixed c hst (mem_wwwStrip c _ hc)
  have hlp : lowerL (lowerL (rstripSlash p)) = lowerL (rstripSlash p) := lowerL_lowerL _
  have hrp : rstripSlash (lowerL (rstripSlash p)) = lowerL (rstripSlash p) := by
    rw [rstripSlash_lowerL, rstripSlash_rstripSlash]
  show String.mk (normalizeUrlL (String.mk (normalizeUrlL (mkUrlL s hst p q f))).toList) = _
  rw [show (String.mk (normalizeUrlL (mkUrlL s hst p q f))).toList =
    normalizeUrlL (mkUrlL s hst p q f) from rfl]
  rw [hout, hmk]
  rw [show normalizeUrl (String.mk (mkUrlL s hst p q f)) =
    String.mk (normalizeUrlL (mkUrlL s hst p q f)) from rfl, hout, hmk]
  congr 1
  rw [normalizeUrlL_mkUrl _ _ _ none none hs2 hh2 hp2 rfl rfl]
  rw [lowerL_lowerL, hlh, hrp, hlp]
  rw [wwwStrip_eq_self _ hw]
  exact hmk

theorem splitFirstAtP_none (p : Char → Bool) (l : List Char)
    (h : ∀ c ∈ l, p c = false) : splitFirstAtP p l = none := by
  induction l with
  | nil => rfl
  | cons a as ih =>
    unfold splitFirstAtP
    rw [if_neg (by simp [h a (List.mem_cons_self a as)])]
    rw [ih (fun c hc => h c (List.mem_cons_of_mem a hc))]
    rfl

theorem splitFirstAtP_mem (p : Char → Bool) (l a b : List Char)
    (hs : splitFirstAtP p l = some (a, b)) : ∀ c ∈ b, c ∈ l := by
  induction l generalizing a with
  | nil => exact absurd hs (by rw [show splitFirstAtP p [] = none from rfl]; simp)
  | cons x xs ih =>
    unfold splitFirstAtP at hs
    split at hs
    · injection hs with hs
      injection hs with hs1 hs2
      subst hs2
      intro c hc
      exact List.mem_cons_of_mem x hc
    · rcases hE : splitFirstAtP p xs with _ | ⟨a2, b2⟩
      · rw [hE] at hs
        exact absurd hs (by simp)
      · rw [hE] at hs
        simp only [Option.map_some'] at hs
        injection hs with hs
        injection hs with hs1 hs2
        subst hs2
        intro c hc
        exact List.mem_cons_of_mem x (ih a2 hE c hc)

theorem mem_stripL (c : Char) (l : List Char) (h : c ∈ stripL l) : c ∈ l := by
  unfold stripL at h
  have h1 := List.mem_reverse.mp h
  have h2 := (List.dropWhile_suffix isPyWs).subset h1
  have h3 := List.mem_reverse.mp h2
  exact (List.dropWhile_suffix isPyWs).subset h3

theorem mem_stripOneEditorialPfx (c : Char) (ps : List (List Char)) (l : List Char)
    (h : c ∈ stripOneEditorialPfx ps l) : c ∈ l := by
  induction ps with
  | nil => exact h
  | cons q qs ih =>
    unfold stripOneEditorialPfx at h
    split at h
    · exact List.mem_of_mem_drop (mem_stripL c _ h)
    · exact ih h

theorem mem_stripSourceSuffix (c : Char) (l : List Char)
    (h : c ∈ stripSourceSuffix l) : c ∈ l := by
  unfold stripSourceSuffix at h
  split at h
  · exact h
  · rename_i r1 r2 hE
    have h1 := List.mem_reverse.mp h
    have h2 := (List.dropWhile_suffix isPyWs).subset h1
    exact List.mem_reverse.mp (splitFirstAtP_mem isSep l.reverse r1 r2 hE c h2)

theorem mem_collapseRuns (a c : Char) (l : List Char) (h : a ∈ collapseRuns c l) :
    a ∈ l := by
  induction l with
  | nil => exact h
  | cons x xs ih =>
    unfold collapseRuns at h
    split at h
    · exact List.mem_cons_of_mem x (ih h)
    · rcases List.mem_cons.mp h with rfl | h2
      · exact List.mem_cons_self a xs
      · exact List.mem_cons_of_mem x (ih h2)

theorem mem_joinSpace (c : Char) (ws : List (List Char)) (h : c ∈ joinSpace ws) :
    c = ' ' ∨ ∃ w ∈ ws, c ∈ w := by
  induction ws with
  | nil => exact absurd h (List.not_mem_nil c)
  | cons w ws' ih =>
    rcases ws' with _ | ⟨w2, ws''⟩
    · exact Or.inr ⟨w, List.mem_cons_self w [], h⟩
    · rw [show joinSpace (w :: w2 :: ws'') = w ++ ' ' :: joinSpace (w2 :: ws'') from rfl] at h
      rcases List.mem_append.mp h with h1 | h1
      · exact Or.inr ⟨w, List.mem_cons_self w _, h1⟩
      · rcases List.mem_cons.mp h1 with rfl | h2
        · exact Or.inl rfl
        · rcases ih h2 with h3 | ⟨w3, hw3, hc3⟩
          · exact Or.inl h3
          · exact Or.inr ⟨w3, List.mem_cons_of_mem w hw3, hc3⟩

theorem pySplitWsAux_infixOf (l : List Char) :
    ∀ acc w, w ∈ pySplitWsAux l acc → w <:+: (acc.reverse ++ l) := by
  induction l with
  | nil =>
    intro acc w hw
    unfold pySplitWsAux at hw
    split at hw
    · exact absurd hw (List.not_mem_nil w)
    · rcases List.mem_cons.mp hw with rfl | h2
      · exact ⟨[], [], by simp⟩
      · exact absurd h2 (List.not_mem_nil w)
  | cons c cs ih =>
    intro acc w hw
    have hcs : cs <:+: acc.reverse ++ c :: cs := ⟨acc.reverse ++ [c], [], by simp⟩
    unfold pySplitWsAux at hw
    split at hw
    · split at hw
      · have h0 := ih [] w hw
        simp only [List.reverse_nil, List.nil_append] at h0
        exact h0.trans hcs
      · rcases List.mem_cons.mp hw with rfl | h2
        · exact ⟨[], c :: cs, by simp⟩
        · have h0 := ih [] w h2
          simp only [List.reverse_nil, List.nil_append] at h0
          exact h0.trans hcs
    · have h0 := ih (c :: acc) w hw
      rw [show (c :: acc).reverse = acc.reverse ++ [c] from List.reverse_cons c acc] at h0
      rw [show acc.reverse ++ [c] ++ cs = acc.reverse ++ (c :: cs) by simp] at h0
      exact h0

theorem pySplitWsAux_good (l : List Char) :
    ∀ acc, (∀ c ∈ acc, isPyWs c = false) →
      ∀ w ∈ pySplitWsAux l acc, w ≠ [] ∧ ∀ c ∈ w, isPyWs c = false := by
  induction l with
  | nil =>
    intro acc hacc w hw
    unfold pySplitWsAux at hw
    split at hw
    · exact absurd hw (List.not_mem_nil w)
    · rcases List.mem_cons.mp hw with rfl | h2
      · rename_i hne
        refine ⟨by simpa using hne, fun c hc => hacc c (List.mem_reverse.mp hc)⟩
      · exact absurd h2 (List.not_mem_nil w)
  | cons c cs ih =>
    intro acc hacc w hw
    unfold pySplitWsAux at hw
    split at hw
    · split at hw
      · exact ih [] (by simp) w hw
      · rcases List.mem_cons.mp hw with rfl | h2
        · rename_i hne
          refine ⟨by simpa using hne, fun x hx => hacc x (List.mem_reverse.mp hx)⟩
        · exact ih [] (by simp) w h2
    · rename_i hcws
      refine ih (c :: acc) ?_ w hw
      intro x hx
      rcases List.mem_cons.mp hx with rfl | h2
      · simpa using hcws
      · exact hacc x h2

theorem pySplitWsAux_word (w : List Char) :
    ∀ rest acc, (∀ c ∈ w, isPyWs c = false) →
      pySplitWsAux (w ++ rest) acc = pySplitWsAux rest (w.reverse ++ acc) := by
  induction w with
  | nil => intro rest acc _; rfl
  | cons c cs ih =>
    intro rest acc hw
    rw [List.cons_append]
    rw [show pySplitWsAux (c :: (cs ++ rest)) acc = pySplitWsAux (cs ++ rest) (c :: acc) by
      conv_lhs => unfold pySplitWsAux
      rw [if_neg (by simp [hw c (List.mem_cons_self c cs)])]]
    rw [ih rest (c :: acc) (fun x hx => hw x (List.mem_cons_of_mem c hx))]
    congr 1
    simp

theorem pySplitWs_join (ws : List (List Char))
    (h : ∀ w ∈ ws, w ≠ [] ∧ ∀ c ∈ w, isPyWs c = false) :
    pySplitWs (joinSpace ws) = ws := by
  induction ws with
  | nil => rfl
  | cons w ws' ih =>
    obtain ⟨hne, hnw⟩ := h w (List.mem_cons_self w ws')
    rcases ws' with _ | ⟨w2, ws''⟩
    · have h1 := pySplitWsAux_word w [] [] hnw
      rw [List.append_nil] at h1
      show pySplitWsAux w [] = [w]
      rw [h1]
      unfold pySplitWsAux
      rw [if_neg (by simpa using hne)]
      simp
    · show pySplitWsAux (w ++ ' ' :: joinSpace (w2 :: ws'')) [] = w :: w2 :: ws''
      have h2 : pySplitWsAux (' ' :: joinSpace (w2 :: ws'')) (w.reverse ++ []) =
          (w.reverse ++ []).reverse :: pySplitWsAux (joinSpace (w2 :: ws'')) [] := by
        conv_lhs => unfold pySplitWsAux
        rw [if_pos (by decide), if_neg (by simpa using hne)]
      have h3 : pySplitWsAux (joinSpace (w2 :: ws'')) [] = w2 :: ws'' :=
        ih (fun x hx => h x (List.mem_cons_of_mem w hx))
      rw [pySplitWsAux_word _ _ [] hnw, h2, h3]
      simp

theorem joinSpace_ne_nil (w : List Char) (ws : List (List Char)) (hne : w ≠ []) :
    joinSpace (w :: ws) ≠ [] := by
  rcases ws with _ | ⟨w2, ws'⟩
  · exact hne
  · show w ++ ' ' :: joinSpace (w2 :: ws') ≠ []
    simp

theorem joinSpace_head? (ws : List (List Char))
    (h : ∀ w ∈ ws, w ≠ [] ∧ ∀ c ∈ w, isPyWs c = false) :
    ∀ c, (joinSpace ws).head? = some c → isPyWs c = false := by
  rcases ws with _ | ⟨w, ws'⟩
  · intro c hc; exact absurd hc (by simp [joinSpace])
  obtain ⟨hne, hnw⟩ := h w (List.mem_cons_self w ws')
  rcases w with _ | ⟨x, xs⟩
  · exact absurd rfl hne
  rcases ws' with _ | ⟨w2, ws''⟩
  · intro c hc
    simp only [joinSpace, List.head?_cons] at hc
    injection hc with hc
    exact hc ▸ hnw x (List.mem_cons_self x xs)
  · intro c hc
    rw [show joinSpace ((x :: xs) :: w2 :: ws'') =
      x :: (xs ++ ' ' :: joinSpace (w2 :: ws'')) from rfl] at hc
    simp only [List.head?_cons] at hc
    injection hc with hc
    exact hc ▸ hnw x (List.mem_cons_self x xs)

theorem joinSpace_getLast? (ws : List (List Char))
    (h : ∀ w ∈ ws, w ≠ [] ∧ ∀ c ∈ w, isPyWs c = false) :
    ∀ c, (joinSpace ws).getLast? = some c → isPyWs c = false := by
  induction ws with
  | nil => intro c hc; exact absurd hc (by simp [joinSpace])
  | cons w ws' ih =>
    obtain ⟨hne, hnw⟩ := h w (List.mem_cons_self w ws')
    rcases ws' with _ | ⟨w2, ws''⟩
    · intro c hc
      exact hnw c (List.mem_reverse.mp (List.mem_of_mem_head? (by rwa [List.head?_reverse])))
    · intro c hc
      rw [show joinSpace (w :: w2 :: ws'') = w ++ ' ' :: joinSpace (w2 :: ws'') from rfl] at hc
      rw [List.getLast?_append_of_ne_nil w (by simp)] at hc
      have hj : joinSpace (w2 :: ws'') ≠ [] :=
        joinSpace_ne_nil w2 ws'' (h w2 (by simp)).1
      rcases hE : joinSpace (w2 :: ws'') with _ | ⟨y, ys⟩
      · exact absurd hE hj
      · rw [hE, List.getLast?_cons_cons] at hc
        apply ih (fun x hx => h x (List.mem_cons_of_mem w hx)) c
        rw [hE]
        exact hc

theorem stripL_of_ends (l : List Char)
    (h1 : ∀ c, l.head? = some c → isPyWs c = false)
    (h2 : ∀ c, l.getLast? = some c → isPyWs c = false) : stripL l = l := by
  unfold stripL
  have hd : l.dropWhile isPyWs = l := by
    cases l with
    | nil => rfl
    | cons a as => rw [List.dropWhile_cons, if_neg (by simp [h1 a rfl])]
  rw [hd]
  have hr : l.reverse.dropWhile isPyWs = l.reverse := by
    rcases hE : l.reverse with _ | ⟨a, as⟩
    · rfl
    · have ha : l.getLast? = some a := by
        rw [← List.head?_reverse, hE, List.head?_cons]
      rw [List.dropWhile_cons, if_neg (by simp [h2 a ha])]
  rw [hr, List.reverse_reverse]

theorem collapseRuns_head? (c : Char) (l : List Char) :
    (collapseRuns c l).head? = l.head? := by
  induction l with
  | nil => rfl
  | cons a as ih =>
    unfold collapseRuns
    split
    · rename_i hcond
      simp only [Bool.and_eq_true, beq_iff_eq, decide_eq_true_eq] at hcond
      rw [ih]
      rcases as with _ | ⟨b, bs⟩
      · exact absurd hcond.2 (by simp)
      · simp only [List.head?_cons]
        have hb : b = c := by simpa using hcond.2
        rw [hb, hcond.1]
    · rfl

theorem collapseRuns_chain (c : Char) (l : List Char) :
    List.Chain' (fun a b => ¬(a = c ∧ b = c)) (collapseRuns c l) := by
  induction l with
  | nil => exact List.chain'_nil
  | cons a as ih =>
    unfold collapseRuns
    split
    · exact ih
    · rename_i hcond
      rw [List.chain'_cons']
      refine ⟨?_, ih⟩
      intro b hb
      rw [collapseRuns_head? c as] at hb
      intro ⟨hac, hbc⟩
      apply hcond
      simp only [Bool.and_eq_true, beq_iff_eq, decide_eq_true_eq]
      rcases as with _ | ⟨x, xs⟩
      · exact absurd hb (by simp)
      · simp only [List.head?_cons] at hb
        injection hb with hb
        exact ⟨hac, by rw [hb, hbc]; rfl⟩

theorem collapseRuns_preserve (c d : Char) (l : List Char)
    (h : List.Chain' (fun a b => ¬(a = c ∧ b = c)) l) :
    List.Chain' (fun a b => ¬(a = c ∧ b = c)) (collapseRuns d l) := by
  induction l with
  | nil => exact List.chain'_nil
  | cons a as ih =>
    unfold collapseRuns
    split
    · exact ih (h.tail)
    · rw [List.chain'_cons']
      refine ⟨?_, ih h.tail⟩
      intro b hb
      rw [collapseRuns_head? d as] at hb
      rcases as with _ | ⟨x, xs⟩
      · exact absurd hb (by simp)
      · simp only [List.head?_cons] at hb
        injection hb with hb
        subst hb
        exact (List.chain'_cons.mp h).1

theorem collapseRuns_eq_self (c : Char) (l : List Char)
    (h : List.Chain' (fun a b => ¬(a = c ∧ b = c)) l) :
    collapseRuns c l = l := by
  induction l with
  | nil => rfl
  | cons a as ih =>
    unfold collapseRuns
    rw [if_neg ?_, ih h.tail]
    intro hcond
    simp only [Bool.and_eq_true, beq_iff_eq, decide_eq_true_eq] at hcond
    rcases as with _ | ⟨x, xs⟩
    · exact absurd hcond.2 (by simp)
    · have hx : x = c := by simpa using hcond.2
      exact (List.chain'_cons.mp h).1 ⟨hcond.1, hx⟩

theorem chain'_joinSpace (c : Char) (hc : c ≠ ' ') (ws : List (List Char))
    (h : ∀ w ∈ ws, List.Chain' (fun a b => ¬(a = c ∧ b = c)) w) :
    List.Chain' (fun a b => ¬(a = c ∧ b = c)) (joinSpace ws) := by
  induction ws with
  | nil => exact List.chain'_nil
  | cons w ws' ih =>
    rcases ws' with _ | ⟨w2, ws''⟩
    · exact h w (List.mem_cons_self w [])
    · rw [show joinSpace (w :: w2 :: ws'') = w ++ ' ' :: joinSpace (w2 :: ws'') from rfl]
      rw [List.chain'_append]
      refine ⟨h w (List.mem_cons_self w _), ?_, ?_⟩
      · rw [List.chain'_cons']
        refine ⟨fun b hb => fun ⟨hsp, _⟩ => hc hsp.symm,
          ih (fun x hx => h x (List.mem_cons_of_mem w hx))⟩
      · intro x hx y hy
        simp only [List.head?_cons] at hy
        injection hy with hy
        exact fun ⟨_, hyc⟩ => hc (hy ▸ hyc).symm

theorem chain'_pySplitWs (c : Char) (l : List Char)
    (h : List.Chain' (fun a b => ¬(a = c ∧ b = c)) l) :
    ∀ w ∈ pySplitWs l, List.Chain' (fun a b => ¬(a = c ∧ b = c)) w := by
  intro w hw
  have hinf := pySplitWsAux_infixOf l [] w hw
  simp only [List.reverse_nil, List.nil_append] at hinf
  exact h.infix hinf

theorem stripOneEditorialPfx_eq_self (ps : List (List Char)) (l : List Char)
    (h : ∀ q ∈ ps, startsWithL l q = false) : stripOneEditorialPfx ps l = l := by
  induction ps with
  | nil => rfl
  | cons q qs ih =>
    unfold stripOneEditorialPfx
    rw [if_neg (by simp [h q (List.mem_cons_self q qs)])]
    exact ih (fun x hx => h x (List.mem_cons_of_mem q hx))

theorem stripSourceSuffix_eq_self (l : List Char)
    (h : ∀ c ∈ l, isSep c = false) : stripSourceSuffix l = l := by
  unfold stripSourceSuffix
  rw [splitFirstAtP_none isSep l.reverse (fun c hc => h c (List.mem_reverse.mp hc))]

theorem mem_normTitleL_fixed (c : Char) (t : List Char) (h : c ∈ normTitleL t) :
    lowerChar c = c := by
  have h1 : c ∈ joinSpace (pySplitWs (collapseRuns '?' (collapseRuns '!'
      (stripSourceSuffix (stripOneEditorialPfx editorialPfxs (lowerL t)))))) :=
    mem_stripL c _ h
  rcases mem_joinSpace c _ h1 with rfl | ⟨w, hw, hcw⟩
  · decide
  · have h2 := (pySplitWsAux_infixOf _ [] w hw).subset hcw
    simp only [List.reverse_nil, List.nil_append] at h2
    have h3 := mem_collapseRuns c '!' _ (mem_collapseRuns c '?' _ h2)
    have h4 := mem_stripOneEditorialPfx c _ _ (mem_stripSourceSuffix c _ h3)
    exact mem_lowerL_fixed c t h4

set_option maxHeartbeats 1000000 in
theorem normTitleL_idem (t : List Char)
    (hpfx : editorialPfxs.all (fun q => !startsWithL (normTitleL t) q) = true)
    (hsep : (normTitleL t).all (fun c => !isSep c) = true) :
    normTitleL (normTitleL t) = normTitleL t := by
  have hws : ∀ w ∈ pySplitWs (collapseRuns '?' (collapseRuns '!'
      (stripSourceSuffix (stripOneEditorialPfx editorialPfxs (lowerL t))))),
      w ≠ [] ∧ ∀ c ∈ w, isPyWs c = false :=
    pySplitWsAux_good _ [] (by simp)
  have hstrip : stripL (joinSpace (pySplitWs (collapseRuns '?' (collapseRuns '!'
      (stripSourceSuffix (stripOneEditorialPfx editorialPfxs (lowerL t))))))) =
      joinSpace (pySplitWs (collapseRuns '?' (collapseRuns '!'
      (stripSourceSuffix (stripOneEditorialPfx editorialPfxs (lowerL t)))))) :=
    stripL_of_ends _ (joinSpace_head? _ hws) (joinSpace_getLast? _ hws)
  have ht' : normTitleL t = joinSpace (pySplitWs (collapseRuns '?' (collapseRuns '!'
      (stripSourceSuffix (stripOneEditorialPfx editorialPfxs (lowerL t)))))) := by
    show stripL _ = _
    exact hstrip
  have hlow : lowerL (normTitleL t) = normTitleL t :=
    lowerL_eq_self _ (fun c hc => mem_normTitleL_fixed c t hc)
  have hchain1 : List.Chain' (fun a b => ¬(a = '!' ∧ b = '!')) (normTitleL t) := by
    rw [ht']
    apply chain'_joinSpace '!' (by decide)
    apply chain'_pySplitWs
    exact collapseRuns_preserve '!' '?' _ (collapseRuns_chain '!' _)
  have hchain2 : List.Chain' (fun a b => ¬(a = '?' ∧ b = '?')) (normTitleL t) := by
    rw [ht']
    apply chain'_joinSpace '?' (by decide)
    apply chain'_pySplitWs
    exact collapseRuns_chain '?' _
  have hsplit : pySplitWs (normTitleL t) = pySplitWs (collapseRuns '?' (collapseRuns '!'
      (stripSourceSuffix (stripOneEditorialPfx editorialPfxs (lowerL t))))) := by
    rw [ht']
    exact pySplitWs_join _ hws
  show stripL (joinSpace (pySplitWs (collapseRuns '?' (collapseRuns '!'
      (stripSourceSuffix (stripOneEditorialPfx editorialPfxs (lowerL (normTitleL t)))))))) =
      normTitleL t
  rw [hlow]
  rw [stripOneEditorialPfx_eq_self editorialPfxs (normTitleL t) (by
    have := List.all_eq_true.mp hpfx
    intro x hx
    simpa using this x hx)]
  rw [stripSourceSuffix_eq_self (normTitleL t) (by
    have := List.all_eq_true.mp hsep
    intro x hx
    simpa using this x hx)]
  rw [collapseRuns_eq_self '!' _ hchain1]
  rw [collapseRuns_eq_self '?' _ hchain2]
  rw [hsplit]
  exact hstrip.trans ht'.symm

/-- C9 (corrected): neither normalizer is idempotent in general (see the
counterexample), but both are idempotent away from the two re-triggering
features: `normalize_url` is idempotent on well-formed `scheme://host path
?query #fragment` URLs whose normalized host does not again start with
`www.`, and `normalize_title` is idempotent on titles whose normalized form
carries no editorial prefix and no `|`/`•`/`·` separator. -/
theorem C9_theorem (s hst p : List Char) (q f : Option (List Char)) (ts : String)
    (hs : goodSchemeB s = true) (hh : goodHostB hst = true) (hp : goodPathB p = true)
    (hq : goodQueryB q = true) (hf : goodFragB f = true)
    (hw : startsWithL (wwwStrip (lowerL hst)) (("www." : String).toList) = false)
    (hpfx : editorialPfxs.all (fun w => !startsWithL (normalizeTitle ts).toList w) = true)
    (hsep : (normalizeTitle ts).toList.all (fun c => !isSep c) = true) :
    normalizeUrl (normalizeUrl (String.mk (mkUrlL s hst p q f))) =
      normalizeUrl (String.mk (mkUrlL s hst p q f)) ∧
    normalizeTitle (normalizeTitle ts) = normalizeTitle ts := by
  refine ⟨normalizeUrl_idem_parts s hst p q f hs hh hp hq hf hw, ?_⟩
  show String.mk (normTitleL (normTitleL ts.toList)) = String.mk (normTitleL ts.toList)
  rw [normTitleL_idem ts.toList hpfx hsep]

/-- C9 counterexample: `normalize_url` strips one `www.` per run
(`http://www.www.x.com` loses another prefix on the second run), and
`normalize_title` strips one editorial prefix and one source suffix per run
(`breaking: breaking: x` loses another prefix on the second run). -/
theorem C9_counterexample :
    normalizeUrl (normalizeUrl "http://www.www.x.com") ≠
      normalizeUrl "http://www.www.x.com" ∧
    normalizeTitle (normalizeTitle "breaking: breaking: x") ≠
      normalizeTitle "breaking: breaking: x" := by
  constructor
  · decide
  · decide

/-- C9 witness: the conditional idempotence applied at
`http://www.x.com/a/` and `Breaking: Big AI News! | TechCrunch`. -/
theorem C9_witness :
    normalizeUrl (normalizeUrl (String.mk (mkUrlL "http".toList "www.x.com".toList
        "/a/".toList none none))) =
      normalizeUrl (String.mk (mkUrlL "http".toList "www.x.com".toList
        "/a/".toList none none)) ∧
    normalizeTitle (normalizeTitle "Breaking: Big AI News! | TechCrunch") =
      normalizeTitle "Breaking: Big AI News! | TechCrunch" :=
  C9_theorem "http".toList "www.x.com".toList "/a/".toList none none
    "Breaking: Big AI News! | TechCrunch"
    (by decide) (by decide) (by decide) (by decide) (by decide) (by decide)
    (by decide) (by decide)

end NewsPipeline
